import Mathlib

/-!
Verification of the array-backed max-heap (binary and d-ary) and the k-way
merge of `rust-practice`
(`projects/algorithms_and_data_structures/src/{main.rs, d_ary_heap.rs,
merge_sorted_list.rs}`).

The heap array is modelled as a `List α`.  The binary heap of `main.rs` keeps
a dummy element at index 0 (the live elements are `array[1..]`); the d-ary
heap of `d_ary_heap.rs` is 0-based with no dummy.  Rust's `PartialOrd` on the
element type is modelled by a key projection `f : α → Int`: for the plain
integer heap `f = id`, for the `IndexValue(usize, T)` pairs of the merge
`f = Prod.snd` (the derived `PartialOrd` compares only the value component,
while `==`, used by `replace`, is full structural equality, modelled by
`DecidableEq α`).
-/

namespace BinHeap

variable {α : Type} [Inhabited α]

/-- Array read `v[i]`; all in-range accesses of the source are modelled by
`getD` with the `Inhabited` default (which is never exposed: every access in
the source is bounds-checked before it happens). -/
def el (v : List α) (i : Nat) : α := v.getD i default

/-- The `exchange!` macro of `main.rs`: swap the elements at `i1` and `i2`. -/
def exchange (v : List α) (i j : Nat) : List α :=
  (v.set i (el v j)).set j (el v i)

variable (f : α → Int)

/-- First half of the `index_to_max` computation inside `Heap::heapfy`:
pick the left child `l = 2*i` over `i` if it is strictly larger. -/
def pickMax1 (v : List α) (i : Nat) : Nat :=
  if f (el v i) < f (el v (2 * i)) then 2 * i else i

/-- The full `index_to_max` computation inside `Heap::heapfy`: after the left
child, also consider the right child `r = 2*i + 1` when it is in range. -/
def pickMax (v : List α) (i : Nat) : Nat :=
  if 2 * i + 1 ≤ v.length - 1 ∧ f (el v (pickMax1 f v i)) < f (el v (2 * i + 1)) then
    2 * i + 1
  else pickMax1 f v i

theorem pickMax1_cases (v : List α) (i : Nat) :
    pickMax1 f v i = i ∨ pickMax1 f v i = 2 * i := by
  unfold pickMax1; split <;> omega

theorem pickMax1_self_le (v : List α) (i : Nat) :
    f (el v i) ≤ f (el v (pickMax1 f v i)) := by
  unfold pickMax1; split <;> omega

theorem pickMax1_left_le (v : List α) (i : Nat) :
    f (el v (2 * i)) ≤ f (el v (pickMax1 f v i)) := by
  unfold pickMax1; split <;> omega

theorem pickMax_cases (v : List α) (i : Nat) :
    pickMax f v i = i ∨ pickMax f v i = 2 * i ∨ pickMax f v i = 2 * i + 1 := by
  unfold pickMax
  have := pickMax1_cases f v i
  split <;> omega

theorem pickMax_le_size (v : List α) (i : Nat) (h : 2 * i ≤ v.length - 1) :
    pickMax f v i ≤ v.length - 1 := by
  unfold pickMax
  have := pickMax1_cases f v i
  split <;> omega

theorem pickMax_self_le (v : List α) (i : Nat) :
    f (el v i) ≤ f (el v (pickMax f v i)) := by
  unfold pickMax
  have := pickMax1_self_le f v i
  split <;> rename_i h
  · omega
  · exact this

theorem pickMax1_lt_of_ne (v : List α) (i : Nat) (h : pickMax1 f v i ≠ i) :
    f (el v i) < f (el v (pickMax1 f v i)) := by
  unfold pickMax1 at h ⊢
  split at h <;> split <;> simp_all

theorem pickMax_lt_of_ne (v : List α) (i : Nat) (h : pickMax f v i ≠ i) :
    f (el v i) < f (el v (pickMax f v i)) := by
  have h1 := pickMax1_self_le f v i
  unfold pickMax at h ⊢
  revert h
  split <;> intro h
  · rename_i hc
    exact lt_of_le_of_lt h1 hc.2
  · exact pickMax1_lt_of_ne f v i h

theorem pickMax_left_le (v : List α) (i : Nat) :
    f (el v (2 * i)) ≤ f (el v (pickMax f v i)) := by
  unfold pickMax
  have := pickMax1_left_le f v i
  split <;> rename_i h
  · omega
  · exact this

theorem pickMax_right_le (v : List α) (i : Nat) (hr : 2 * i + 1 ≤ v.length - 1) :
    f (el v (2 * i + 1)) ≤ f (el v (pickMax f v i)) := by
  unfold pickMax
  split <;> rename_i h
  · omega
  · rw [not_and_or] at h
    rcases h with h | h
    · omega
    · omega

/-- `Heap::heapfy` (the iterative sift-down of `main.rs`): restore the heap
shape below `i`, assuming the two child subtrees are already heaps.  The slice
it runs on carries the dummy at index 0, so the last live index is
`v.length - 1`. -/
def heapfy (v : List α) (i : Nat) : List α :=
  if v.length - 1 < 2 * i then v
  else
    let iMax := pickMax f v i
    if _h : iMax = i then v
    else heapfy (exchange v i iMax) iMax
termination_by v.length - i
decreasing_by
  rename_i hguard
  simp only [exchange, el, List.length_set]
  have h1 := pickMax_cases f v i
  have h2 := pickMax_le_size f v i (by omega)
  omega

theorem el_cons_succ (a : α) (t : List α) (n : Nat) : el (a :: t) (n + 1) = el t n := by
  simp [el]

theorem el_set_self {v : List α} {i : Nat} (h : i < v.length) (x : α) :
    el (v.set i x) i = x := by
  simp [el, List.getD_eq_getElem?_getD, List.getElem?_set_self h]

theorem el_set_ne {i j : Nat} (h : i ≠ j) (v : List α) (x : α) :
    el (v.set i x) j = el v j := by
  simp [el, List.getD_eq_getElem?_getD, List.getElem?_set_ne h]

theorem set_el_self {v : List α} {i : Nat} : v.set i (el v i) = v := by
  apply List.ext_getElem?
  intro n
  rw [List.getElem?_set]
  split
  · rename_i hn
    subst hn
    split
    · rename_i hlt
      simp [el, List.getD_eq_getElem?_getD, List.getElem?_eq_getElem hlt]
    · rename_i hge
      exact (List.getElem?_len_le (by omega)).symm
  · rfl

theorem length_exchange (v : List α) (i j : Nat) :
    (exchange v i j).length = v.length := by
  simp [exchange, List.length_set]

theorem el_exchange_snd {v : List α} {j : Nat} (hj : j < v.length) (i : Nat) :
    el (exchange v i j) j = el v i := by
  unfold exchange
  exact el_set_self (by simp [List.length_set]; omega) _

theorem el_exchange_fst {v : List α} {i j : Nat} (hi : i < v.length) (hne : i ≠ j) :
    el (exchange v i j) i = el v j := by
  unfold exchange
  rw [el_set_ne (fun h => hne h.symm), el_set_self hi]

theorem el_exchange_other {v : List α} {i j m : Nat} (h1 : m ≠ i) (h2 : m ≠ j) :
    el (exchange v i j) m = el v m := by
  unfold exchange
  rw [el_set_ne (fun h => h2 h.symm), el_set_ne (fun h => h1 h.symm)]

theorem set_perm {v : List α} {i : Nat} (h : i < v.length) (x : α) :
    (v.set i x ++ [el v i]).Perm (v ++ [x]) := by
  induction v generalizing i with
  | nil => simp at h
  | cons a t ih =>
    cases i with
    | zero =>
      simp only [List.set_cons_zero, el, List.getD_cons_zero, List.cons_append]
      exact (((List.perm_append_singleton a t).cons x).trans
        (List.Perm.swap a x t)).trans (((List.perm_append_singleton x t).symm).cons a)
    | succ n =>
      simp only [List.set_cons_succ, el, List.getD_cons_succ, List.cons_append]
      exact (ih (by simpa using h) (i := n)).cons a

theorem set_coe {v : List α} {i : Nat} (h : i < v.length) (x : α) :
    (↑(v.set i x) : Multiset α) + {el v i} = (↑v : Multiset α) + {x} := by
  have h2 := Multiset.coe_eq_coe.mpr (set_perm h x)
  rw [← Multiset.coe_add, ← Multiset.coe_add, Multiset.coe_singleton] at h2
  exact h2

theorem exchange_coe {v : List α} {i j : Nat} (hi : i < v.length) (hj : j < v.length) :
    (↑(exchange v i j) : Multiset α) = (↑v : Multiset α) := by
  by_cases hij : i = j
  · subst hij
    unfold exchange
    rw [List.set_set, set_el_self]
  · unfold exchange
    have h1 := set_coe hi (el v j)
    have h2 := set_coe (v := v.set i (el v j)) (i := j) (by simp [List.length_set]; omega) (el v i)
    rw [el_set_ne hij] at h2
    have : (↑((v.set i (el v j)).set j (el v i)) : Multiset α) + {el v j}
        = (↑v : Multiset α) + {el v j} := by
      rw [h2, h1]
    exact add_right_cancel this

theorem exchange_perm {v : List α} {i j : Nat} (hi : i < v.length) (hj : j < v.length) :
    (exchange v i j).Perm v :=
  Multiset.coe_eq_coe.mp (exchange_coe hi hj)

theorem length_heapfy (v : List α) (i : Nat) : (heapfy f v i).length = v.length := by
  induction v, i using heapfy.induct f with
  | case1 v i h => rw [heapfy]; simp [h]
  | case2 v i h iMax hmax =>
    rw [heapfy]
    simp only [if_neg h]
    rw [dif_pos hmax]
  | case3 v i h iMax hmax ih =>
    rw [heapfy]
    simp only [if_neg h]
    rw [dif_neg hmax]
    rw [ih, length_exchange]

theorem heapfy_coe (v : List α) (i : Nat) :
    (↑(heapfy f v i) : Multiset α) = (↑v : Multiset α) := by
  induction v, i using heapfy.induct f with
  | case1 v i h => rw [heapfy]; simp [h]
  | case2 v i h iMax hmax =>
    rw [heapfy]
    simp only [if_neg h]
    rw [dif_pos hmax]
  | case3 v i h iMax hmax ih =>
    rw [heapfy]
    simp only [if_neg h]
    rw [dif_neg hmax]
    rw [ih]
    have hsz := pickMax_le_size f v i (by omega)
    exact exchange_coe (by omega) (by omega)

theorem heapfy_perm (v : List α) (i : Nat) : (heapfy f v i).Perm v :=
  Multiset.coe_eq_coe.mp (heapfy_coe f v i)

theorem el_heapfy_zero (v : List α) (i : Nat) (hi : 1 ≤ i) :
    el (heapfy f v i) 0 = el v 0 := by
  induction v, i using heapfy.induct f with
  | case1 v i h => rw [heapfy]; simp [h]
  | case2 v i h iMax hmax =>
    rw [heapfy]
    simp only [if_neg h]
    rw [dif_pos hmax]
  | case3 v i h iMax hmax ih =>
    rw [heapfy]
    simp only [if_neg h]
    rw [dif_neg hmax]
    have hcases := pickMax_cases f v i
    rw [ih (by omega)]
    exact el_exchange_other (by omega) (by omega)

/-- Core correctness of the sift-down `Heap::heapfy`: if every parent/child
pair in the region of indices whose parent is `≥ i` is ordered except possibly
the pairs whose parent is `p`, and the children of `p` are bounded by the
value at the parent of `p` (when that parent is inside the region), then after
`heapfy v p` the whole region is ordered. -/
theorem heapfy_restores (v : List α) (p : Nat) {i : Nat} (hi : 1 ≤ i) :
    i ≤ p →
    (∀ j, j < v.length → 2 ≤ j → i ≤ j / 2 → j / 2 ≠ p →
      f (el v j) ≤ f (el v (j / 2))) →
    (∀ c, c < v.length → c / 2 = p → i ≤ p / 2 →
      f (el v c) ≤ f (el v (p / 2))) →
    ∀ j, j < (heapfy f v p).length → 2 ≤ j → i ≤ j / 2 →
      f (el (heapfy f v p) j) ≤ f (el (heapfy f v p) (j / 2)) := by
  induction v, p using heapfy.induct f with
  | case1 v p h =>
    intro hip Hq _G j hj hj2 hji
    rw [heapfy, if_pos h] at hj ⊢
    by_cases hjp : j / 2 = p
    · omega
    · exact Hq j hj hj2 hji hjp
  | case2 v p h iMax hmax =>
    intro hip Hq _G j hj hj2 hji
    rw [heapfy, if_neg h, dif_pos hmax] at hj ⊢
    by_cases hjp : j / 2 = p
    · have hj1 : j = 2 * p ∨ j = 2 * p + 1 := by omega
      rcases hj1 with hj1 | hj1
      · subst hj1
        have := pickMax_left_le f v p
        rw [show pickMax f v p = p from hmax] at this
        rw [hjp]
        exact this
      · subst hj1
        have := pickMax_right_le f v p (by omega)
        rw [show pickMax f v p = p from hmax] at this
        rw [hjp]
        exact this
    · exact Hq j hj hj2 hji hjp
  | case3 v p h iMax hmax ih =>
    intro hip Hq G j hj hj2 hji
    have hszmax : iMax ≤ v.length - 1 := pickMax_le_size f v p (by omega)
    have hcs := pickMax_cases f v p
    have hlenpos : 1 ≤ v.length := by omega
    have hplen : p < v.length := by omega
    have hmlen : iMax < v.length := by omega
    have hstrict : f (el v p) < f (el v iMax) := pickMax_lt_of_ne f v p hmax
    have hleft : f (el v (2 * p)) ≤ f (el v iMax) := pickMax_left_le f v p
    have hmx2 : iMax / 2 = p := by omega
    rw [heapfy, if_neg h, dif_neg hmax] at hj ⊢
    refine ih (by omega) ?_ ?_ j hj hj2 hji
    · -- the almost-heap hypothesis for the state after the swap
      intro j hjl hj2 hji hjmax
      rw [length_exchange] at hjl
      by_cases hjp : j / 2 = p
      · by_cases hjmx : j = iMax
        · subst hjmx
          rw [el_exchange_snd hmlen, hjp, el_exchange_fst hplen (by omega)]
          exact hstrict.le
        · have hjne : j ≠ p := by omega
          rw [el_exchange_other hjne hjmx, hjp, el_exchange_fst hplen (by omega)]
          have hj1 : j = 2 * p ∨ j = 2 * p + 1 := by omega
          rcases hj1 with hj1 | hj1
          · subst hj1; exact hleft
          · subst hj1; exact pickMax_right_le f v p (by omega)
      · by_cases hjq : j = p
        · subst hjq
          rw [el_exchange_fst hplen (by omega),
            el_exchange_other (by omega) (by omega)]
          exact G iMax hmlen hmx2 (by omega)
        · have hjmx : j ≠ iMax := by omega
          rw [el_exchange_other hjq hjmx,
            el_exchange_other (by omega) (by omega)]
          exact Hq j hjl hj2 hji hjp
    · -- the children of the new defect `iMax` are bounded by its parent
      intro c hcl hc2 hcmx2
      rw [length_exchange] at hcl
      rw [hmx2] at hcmx2 ⊢
      have hcne : c ≠ p := by omega
      have hcmx : c ≠ iMax := by omega
      rw [el_exchange_other hcne hcmx, el_exchange_fst hplen (by omega)]
      have hq := Hq c hcl (by omega) (by omega) (by omega)
      rw [hc2] at hq
      exact hq

/-- The max-heap invariant of the 1-based binary heap of `main.rs`:
every live index `j ≥ 2` is bounded by its parent `j / 2`. -/
def IsHeap (v : List α) : Prop :=
  ∀ j, j < v.length → 2 ≤ j → f (el v j) ≤ f (el v (j / 2))

instance (v : List α) : Decidable (IsHeap f v) := by
  unfold IsHeap
  infer_instance

/-- In a heap, every live element is bounded by the root `v[1]`. -/
theorem IsHeap.le_root {v : List α} (hv : IsHeap f v) :
    ∀ j, j < v.length → 1 ≤ j → f (el v j) ≤ f (el v 1) := by
  intro j
  induction j using Nat.strong_induction_on with
  | _ j ihj =>
    intro hj hj1
    by_cases hj2 : 2 ≤ j
    · exact le_trans (hv j hj hj2) (ihj (j / 2) (by omega) (by omega) (by omega))
    · have : j = 1 := by omega
      subst this
      exact le_refl _

theorem el_cons_zero (a : α) (t : List α) : el (a :: t) 0 = a := rfl

theorem el_eq_getElem {v : List α} {i : Nat} (h : i < v.length) : el v i = v[i] := by
  simp [el, List.getD_eq_getElem?_getD, List.getElem?_eq_getElem h]

theorem cons_el_tail {v : List α} (h : 1 ≤ v.length) : v = el v 0 :: v.tail := by
  cases v with
  | nil => simp at h
  | cons a t => simp [el]

theorem el_tail (v : List α) (n : Nat) : el v.tail n = el v (n + 1) := by
  cases v with
  | nil => simp [el]
  | cons a t => simp [el]

theorem mem_tail_iff {v : List α} {x : α} :
    x ∈ v.tail ↔ ∃ j, 1 ≤ j ∧ j < v.length ∧ x = el v j := by
  cases v with
  | nil => simp
  | cons a t =>
    simp only [List.tail_cons, List.mem_iff_getElem, List.length_cons]
    constructor
    · rintro ⟨n, hn, rfl⟩
      exact ⟨n + 1, by omega, by omega, by rw [el_cons_succ, el_eq_getElem hn]⟩
    · rintro ⟨j, hj1, hj2, rfl⟩
      refine ⟨j - 1, by omega, ?_⟩
      rw [← el_eq_getElem (by omega)]
      have h3 : el (a :: t) ((j - 1) + 1) = el t (j - 1) := el_cons_succ a t (j - 1)
      rw [show (j - 1) + 1 = j from by omega] at h3
      exact h3.symm

theorem el_append_left {l1 : List α} (l2 : List α) {j : Nat} (h : j < l1.length) :
    el (l1 ++ l2) j = el l1 j := by
  simp [el, List.getD_eq_getElem?_getD, List.getElem?_append, h]

theorem el_append_right {l1 : List α} (l2 : List α) {j : Nat} (h : l1.length ≤ j) :
    el (l1 ++ l2) j = el l2 (j - l1.length) := by
  simp [el, List.getD_eq_getElem?_getD, List.getElem?_append, Nat.not_lt.mpr h]

theorem el_take {l : List α} {n j : Nat} (h : j < n) : el (l.take n) j = el l j := by
  simp [el, List.getD_eq_getElem?_getD, List.getElem?_take, h]

theorem el_drop (l : List α) (n j : Nat) : el (l.drop n) j = el l (n + j) := by
  simp [el, List.getD_eq_getElem?_getD, List.getElem?_drop]

theorem el_dropLast {l : List α} {j : Nat} (h : j < l.length - 1) :
    el l.dropLast j = el l j := by
  rw [List.dropLast_eq_take, el_take h]

/-- `Heap::size`: the number of live elements (`array.len() - 1`, the dummy at
index 0 does not count). -/
def size (v : List α) : Nat := v.length - 1

/-- `Heap::max`: peek at `array[1]` (`self.array.get(1).copied()`). -/
def heapMax (v : List α) : Option α := v[1]?

/-- The `while i >= 1` loop of `Heap::build_heap`, running `heapfy` at
`i, i-1, ..., 1`. -/
def buildLoop (v : List α) : Nat → List α
  | 0 => v
  | i + 1 => buildLoop (heapfy f v (i + 1)) i

/-- `Heap::build_heap`: prepend the dummy `T::default()` (passed here as
`d0`), then sift down every internal node from `initial.length >> 1` down
to 1. -/
def build_heap (d0 : α) (initial : List α) : List α :=
  buildLoop f (d0 :: initial) (initial.length / 2)

/-- `Heap::extract_max`: if the heap is empty return `None`; otherwise swap
the root with the last element, pop it, and sift the new root down. -/
def extract_max (v : List α) : Option α × List α :=
  if v.length - 1 = 0 then (none, v)
  else
    let v1 := exchange v 1 (v.length - 1)
    (some (el v1 (v1.length - 1)), heapfy f v1.dropLast 1)

/-- `Heap::delete`: fails when `i == 0 || i > size`; otherwise swap `v[i]`
with the last element (unless `i == size`), pop it, and sift down at `i`. -/
def delete (i : Nat) (v : List α) : Except String (α × List α) :=
  if i = 0 ∨ v.length - 1 < i then
    .error "i is out of range. It must be in the range from 1 to size"
  else
    let v1 := if i ≠ v.length - 1 then exchange v i (v.length - 1) else v
    .ok (el v1 (v1.length - 1), heapfy f v1.dropLast i)

/-- The sift-up loop shared by `Heap::insert` and the growing branch of
`Heap::replace`: while `i > 1` and the parent is smaller than the new value,
shift the parent down one slot; finally write the value at the stopping
position. -/
def insertLoop (x : α) (v : List α) (i : Nat) : List α :=
  if _h : 1 < i ∧ f (el v (i / 2)) < f x then
    insertLoop x (v.set i (el v (i / 2))) (i / 2)
  else v.set i x
termination_by i
decreasing_by omega

/-- `Heap::insert`: push at the end, then sift up (the `i == 1` case returns
immediately after the push). -/
def insert (x : α) (v : List α) : List α :=
  let v1 := v ++ [x]
  if v1.length - 1 = 1 then v1
  else insertLoop f x v1 (v1.length - 1)

/-- `Heap::replace`: out-of-range error, then the three value cases of the
source in order — strictly smaller (overwrite + sift down), equal
(structural equality, no-op), size-one heap (plain overwrite), and finally
the sift-up loop. -/
def replace [DecidableEq α] (i : Nat) (x : α) (v : List α) :
    Except String (List α) :=
  if i = 0 ∨ v.length - 1 < i then .error "i must be in range from 1 to size"
  else if f x < f (el v i) then .ok (heapfy f (v.set i x) i)
  else if x = el v i then .ok v
  else if v.length - 1 = 1 then .ok (v.set i x)
  else .ok (insertLoop f x v i)

/-- `Heap::replace_if_greater`: out-of-range error; no-op unless the new
value is strictly greater; otherwise the same sift-up loop. -/
def replace_if_greater (i : Nat) (x : α) (v : List α) :
    Except String (List α) :=
  if i = 0 ∨ v.length - 1 < i then .error "i must be in range from 1 to size"
  else if f x ≤ f (el v i) then .ok v
  else .ok (insertLoop f x v i)

/-- The `while length >= 2` loop of `Heap::heapsort`: swap the root with the
last live element, shrink the live region, sift the new root down over the
shrunk region (`heapfy` on the slice `v[..length+1]`, the rest untouched). -/
def heapsortLoop (v : List α) : Nat → List α
  | 0 => v
  | 1 => v
  | n + 2 =>
    let v1 := exchange v 1 (n + 2)
    heapsortLoop (heapfy f (v1.take (n + 2)) 1 ++ v1.drop (n + 2)) (n + 1)

/-- `Heap::heapsort`: run the loop starting from `length = size`; the result
is the same array, now ascending on `array[1..]`. -/
def heapsort (v : List α) : List α := heapsortLoop f v (v.length - 1)

/-- `Heap::<T, Sorted>::is_sorted`: `array[1..]` is pairwise ascending. -/
def is_sorted (v : List α) : Prop :=
  List.Chain' (fun a b => f a ≤ f b) v.tail

/-- `Heap::<T, Sorted>::priority_queue`: swap the dummy slot 0 with the last
element, pop it, and rebuild a heap from what remains (`build_heap` adds a
fresh dummy `d0`). -/
def priority_queue (d0 : α) (v : List α) : List α :=
  build_heap f d0 ((exchange v 0 (v.length - 1)).dropLast)

theorem coe_cons_decomp {v : List α} (h : 1 ≤ v.length) :
    (↑v : Multiset α) = el v 0 ::ₘ (↑v.tail : Multiset α) := by
  conv_lhs => rw [cons_el_tail h]
  exact (Multiset.cons_coe _ _)

/-- Transfer a whole-array multiset identity to the live region `array[1..]`
when the dummy slot is preserved. -/
theorem tail_coe_of_coe {v w : List α} (hv : 1 ≤ v.length) (hw : 1 ≤ w.length)
    (h0 : el w 0 = el v 0) {M : Multiset α}
    (hc : (↑w : Multiset α) + M = (↑v : Multiset α) + ((0 : Multiset α) + M)) :
    (↑w.tail : Multiset α) + M = (↑v.tail : Multiset α) + M := by
  rw [coe_cons_decomp hv, coe_cons_decomp hw, h0] at hc
  rw [Multiset.cons_add, Multiset.cons_add, zero_add] at hc
  exact Multiset.cons_inj_right _ |>.mp hc

theorem length_buildLoop (v : List α) (k : Nat) :
    (buildLoop f v k).length = v.length := by
  induction k generalizing v with
  | zero => rfl
  | succ k ih => rw [buildLoop, ih, length_heapfy]

theorem buildLoop_coe (v : List α) (k : Nat) :
    (↑(buildLoop f v k) : Multiset α) = ↑v := by
  induction k generalizing v with
  | zero => rfl
  | succ k ih => rw [buildLoop, ih, heapfy_coe]

theorem el_buildLoop_zero (v : List α) (k : Nat) :
    el (buildLoop f v k) 0 = el v 0 := by
  induction k generalizing v with
  | zero => rfl
  | succ k ih => rw [buildLoop, ih, el_heapfy_zero f v (k + 1) (by omega)]

theorem buildLoop_heap (k : Nat) (v : List α)
    (H : ∀ j, j < v.length → 2 ≤ j → k + 1 ≤ j / 2 → f (el v j) ≤ f (el v (j / 2))) :
    IsHeap f (buildLoop f v k) := by
  induction k generalizing v with
  | zero =>
    intro j hj hj2
    rw [buildLoop] at hj ⊢
    exact H j hj hj2 (by omega)
  | succ k ih =>
    rw [buildLoop]
    apply ih
    intro j hj hj2 hjk
    exact heapfy_restores f v (k + 1) (i := k + 1) (by omega) (le_refl _)
      (fun j hjl hj2 hji hjp => H j hjl hj2 (by omega))
      (fun c hcl hc2 hcp => absurd hcp (by omega))
      j hj hj2 (by omega)

theorem build_heap_IsHeap (d0 : α) (xs : List α) : IsHeap f (build_heap f d0 xs) := by
  apply buildLoop_heap
  intro j hj hj2 hjk
  simp only [List.length_cons] at hj
  exact absurd hjk (by omega)

theorem length_build (d0 : α) (xs : List α) :
    (build_heap f d0 xs).length = xs.length + 1 := by
  rw [build_heap, length_buildLoop, List.length_cons]

theorem build_coe (d0 : α) (xs : List α) :
    (↑(build_heap f d0 xs) : Multiset α) = ↑(d0 :: xs) := buildLoop_coe f _ _

theorem el_build_zero (d0 : α) (xs : List α) : el (build_heap f d0 xs) 0 = d0 :=
  el_buildLoop_zero f _ _

theorem build_tail_coe (d0 : α) (xs : List α) :
    (↑(build_heap f d0 xs).tail : Multiset α) = ↑xs := by
  have h1 := build_coe f d0 xs
  rw [coe_cons_decomp (v := build_heap f d0 xs) (by rw [length_build]; omega),
    el_build_zero, Multiset.cons_coe] at h1
  exact (Multiset.cons_inj_right _).mp h1

theorem build_tail_perm (d0 : α) (xs : List α) :
    ((build_heap f d0 xs).tail).Perm xs :=
  Multiset.coe_eq_coe.mp (build_tail_coe f d0 xs)

theorem extract_max_empty {v : List α} (h : v.length - 1 = 0) :
    extract_max f v = (none, v) := by
  rw [extract_max, if_pos h]

theorem extract_max_spec {v : List α} (hs : 1 ≤ v.length - 1) :
    (extract_max f v).1 = some (el v 1) ∧
    (extract_max f v).2.length = v.length - 1 ∧
    el (extract_max f v).2 0 = el v 0 ∧
    (↑(extract_max f v).2 : Multiset α) + {el v 1} = (↑v : Multiset α) := by
  have hlen : 2 ≤ v.length := by omega
  rw [extract_max, if_neg (by omega)]
  dsimp only
  have hlen1 : (exchange v 1 (v.length - 1)).length = v.length := length_exchange v _ _
  have hne : (exchange v 1 (v.length - 1)) ≠ [] := by
    intro h
    rw [← List.length_eq_zero] at h
    omega
  refine ⟨?_, ?_, ?_, ?_⟩
  · rw [hlen1, el_exchange_snd (by omega)]
  · rw [length_heapfy, List.length_dropLast, hlen1]
  · rw [el_heapfy_zero f _ 1 (by omega), el_dropLast (by omega),
      el_exchange_other (by omega) (by omega)]
  · rw [heapfy_coe]
    have h2 := List.dropLast_append_getLast hne
    have h3 : (↑((exchange v 1 (v.length - 1)).dropLast) : Multiset α)
        + ↑[(exchange v 1 (v.length - 1)).getLast hne]
        = ↑(exchange v 1 (v.length - 1)) := by
      rw [Multiset.coe_add, h2]
    rw [Multiset.coe_singleton] at h3
    rw [List.getLast_eq_getElem, ← el_eq_getElem (by omega), hlen1,
      el_exchange_snd (by omega)] at h3
    rw [h3]
    exact exchange_coe (by omega) (by omega)

theorem extract_max_IsHeap {v : List α} (hv : IsHeap f v) :
    IsHeap f (extract_max f v).2 := by
  by_cases hs : v.length - 1 = 0
  · rw [extract_max_empty f hs]
    exact hv
  · rw [extract_max, if_neg hs]
    dsimp only
    have hlen : 2 ≤ v.length := by omega
    have hlen1 : (exchange v 1 (v.length - 1)).length = v.length := length_exchange v _ _
    have hdl : ((exchange v 1 (v.length - 1)).dropLast).length = v.length - 1 := by
      rw [List.length_dropLast, hlen1]
    intro j hj hj2
    rw [length_heapfy, hdl] at hj
    refine heapfy_restores f _ 1 (i := 1) (by omega) (by omega) ?_
      (fun c hcl hc2 hcp => absurd hcp (by omega)) j (by rw [length_heapfy, hdl]; omega)
      hj2 (by omega)
    intro j hjl hj2 hji hjp
    rw [hdl] at hjl
    rw [el_dropLast (by omega), el_dropLast (by omega),
      el_exchange_other (by omega) (by omega), el_exchange_other (by omega) (by omega)]
    exact hv j (by omega) hj2

theorem delete_error_iff {v : List α} {i : Nat} :
    (∃ e, delete f i v = .error e) ↔ (i = 0 ∨ v.length - 1 < i) := by
  rw [delete]
  split
  · rename_i h
    exact ⟨fun _ => h, fun _ => ⟨_, rfl⟩⟩
  · rename_i h
    constructor
    · rintro ⟨e, he⟩
      simp at he
    · intro hc
      exact absurd hc h

theorem delete_ok {v : List α} {i : Nat} (hi : 1 ≤ i) (hs : i ≤ v.length - 1) :
    ∃ w, delete f i v = .ok (el v i, w) ∧ w.length = v.length - 1 ∧
      el w 0 = el v 0 ∧ ((↑w : Multiset α) + {el v i} = (↑v : Multiset α)) := by
  have hlen : 2 ≤ v.length := by omega
  rw [delete, if_neg (by omega)]
  dsimp only
  by_cases hisz : i = v.length - 1
  · rw [if_neg (by omega)]
    refine ⟨_, by rw [← hisz], ?_, ?_, ?_⟩
    · rw [length_heapfy, List.length_dropLast]
    · rw [el_heapfy_zero f _ i hi, el_dropLast (by omega)]
    · rw [heapfy_coe]
      have hne : v ≠ [] := by intro h; rw [← List.length_eq_zero] at h; omega
      have h3 : (↑(v.dropLast) : Multiset α) + {v.getLast hne} = ↑v := by
        rw [← Multiset.coe_singleton, Multiset.coe_add, List.dropLast_append_getLast hne]
      rw [List.getLast_eq_getElem, ← el_eq_getElem (by omega), ← hisz] at h3
      exact h3
  · rw [if_pos (by omega)]
    have hlen1 : (exchange v i (v.length - 1)).length = v.length := length_exchange v _ _
    have hne : (exchange v i (v.length - 1)) ≠ [] := by
      intro h; rw [← List.length_eq_zero] at h; omega
    refine ⟨_, by rw [hlen1, el_exchange_snd (by omega)], ?_, ?_, ?_⟩
    · rw [length_heapfy, List.length_dropLast, hlen1]
    · rw [el_heapfy_zero f _ i hi, el_dropLast (by omega),
        el_exchange_other (by omega) (by omega)]
    · rw [heapfy_coe]
      have h2 := List.dropLast_append_getLast hne
      have h3 : (↑((exchange v i (v.length - 1)).dropLast) : Multiset α)
          + {(exchange v i (v.length - 1)).getLast hne}
          = ↑(exchange v i (v.length - 1)) := by
        rw [← Multiset.coe_singleton, Multiset.coe_add, h2]
      rw [List.getLast_eq_getElem, ← el_eq_getElem (by omega), hlen1,
        el_exchange_snd (by omega)] at h3
      rw [h3]
      exact exchange_coe (by omega) (by omega)

theorem length_insertLoop (x : α) (v : List α) (i : Nat) :
    (insertLoop f x v i).length = v.length := by
  induction v, i using insertLoop.induct f x with
  | case1 v i h ih =>
    rw [insertLoop, dif_pos h, ih, List.length_set]
  | case2 v i h =>
    rw [insertLoop, dif_neg h, List.length_set]

theorem el_insertLoop_zero (x : α) (v : List α) (i : Nat) (hi : 1 ≤ i) :
    el (insertLoop f x v i) 0 = el v 0 := by
  induction v, i using insertLoop.induct f x with
  | case1 v i h ih =>
    rw [insertLoop, dif_pos h, ih (by omega), el_set_ne (by omega)]
  | case2 v i h =>
    rw [insertLoop, dif_neg h, el_set_ne (by omega)]

theorem insertLoop_coe (x : α) (v : List α) (i : Nat) (hlen : i < v.length) :
    (↑(insertLoop f x v i) : Multiset α) + {el v i} = (↑v : Multiset α) + {x} := by
  induction v, i using insertLoop.induct f x with
  | case1 v i h ih =>
    rw [insertLoop, dif_pos h]
    have hlen2 : i / 2 < (v.set i (el v (i / 2))).length := by
      rw [List.length_set]; omega
    have hstep := ih hlen2
    rw [el_set_ne (by omega)] at hstep
    have h4 : (↑(insertLoop f x (v.set i (el v (i / 2))) (i / 2)) : Multiset α)
        + {el v i} + {el v (i / 2)}
        = (↑v : Multiset α) + {x} + {el v (i / 2)} := by
      calc (↑(insertLoop f x (v.set i (el v (i / 2))) (i / 2)) : Multiset α)
            + {el v i} + {el v (i / 2)}
          = (↑(insertLoop f x (v.set i (el v (i / 2))) (i / 2)) : Multiset α)
            + {el v (i / 2)} + {el v i} := by rw [add_right_comm]
        _ = (↑(v.set i (el v (i / 2))) : Multiset α) + {x} + {el v i} := by rw [hstep]
        _ = (↑(v.set i (el v (i / 2))) : Multiset α) + {el v i} + {x} := by
            rw [add_right_comm]
        _ = (↑v : Multiset α) + {el v (i / 2)} + {x} := by rw [set_coe hlen]
        _ = (↑v : Multiset α) + {x} + {el v (i / 2)} := by rw [add_right_comm]
    exact add_right_cancel h4
  | case2 v i h =>
    rw [insertLoop, dif_neg h]
    exact set_coe hlen x

/-- Correctness of the shifting sift-up loop: if all parent/child pairs hold
except possibly the one at `i`, the children of `i` are bounded by the value
being inserted and (when `i` has a real parent) by that parent, then the loop
yields a heap. -/
theorem insertLoop_heap (x : α) (v : List α) (i : Nat) (hi : 1 ≤ i)
    (hlen : i < v.length)
    (H1 : ∀ j, j < v.length → 2 ≤ j → j ≠ i → f (el v j) ≤ f (el v (j / 2)))
    (H2 : ∀ c, c < v.length → c / 2 = i → f (el v c) ≤ f x)
    (H3 : 2 ≤ i → ∀ c, c < v.length → c / 2 = i → f (el v c) ≤ f (el v (i / 2))) :
    IsHeap f (insertLoop f x v i) := by
  induction v, i using insertLoop.induct f x with
  | case1 v i h ih =>
    rw [insertLoop, dif_pos h]
    have hlen2 : i / 2 < (v.set i (el v (i / 2))).length := by
      rw [List.length_set]; omega
    apply ih (by omega) hlen2
    · -- pairs except at the new position i / 2
      intro j hjl hj2 hji
      rw [List.length_set] at hjl
      by_cases hjeq : j = i
      · subst hjeq
        rw [el_set_self hlen, el_set_ne (by omega)]
      · rw [el_set_ne (by omega)]
        by_cases hjp : j / 2 = i
        · rw [hjp, el_set_self hlen]
          exact H3 (by omega) j hjl hjp
        · rw [el_set_ne (by omega)]
          exact H1 j hjl hj2 hjeq
    · -- children of i / 2 are below x
      intro c hcl hc2
      rw [List.length_set] at hcl
      by_cases hceq : c = i
      · subst hceq
        rw [el_set_self hlen]
        exact h.2.le
      · rw [el_set_ne (by omega)]
        exact le_trans (H1 c hcl (by omega) hceq) (by rw [hc2]; exact h.2.le)
    · -- children of i / 2 are below the value at its parent
      intro hq2 c hcl hc2
      rw [List.length_set] at hcl
      have hrhs : el (v.set i (el v (i / 2))) (i / 2 / 2) = el v (i / 2 / 2) :=
        el_set_ne (by omega) v _
      rw [hrhs]
      by_cases hceq : c = i
      · subst hceq
        rw [el_set_self hlen]
        exact H1 (c / 2) (by omega) (by omega) (by omega)
      · rw [el_set_ne (by omega)]
        exact le_trans (H1 c hcl (by omega) hceq)
          (by rw [hc2]; exact H1 (i / 2) (by omega) (by omega) (by omega))
  | case2 v i h =>
    rw [insertLoop, dif_neg h]
    intro j hjl hj2
    rw [List.length_set] at hjl
    by_cases hjeq : j = i
    · subst hjeq
      rw [el_set_self hlen, el_set_ne (by omega)]
      rw [not_and_or] at h
      rcases h with h | h
      · omega
      · exact le_of_not_lt h
    · rw [el_set_ne (by omega)]
      by_cases hjp : j / 2 = i
      · rw [hjp, el_set_self hlen]
        exact H2 j hjl hjp
      · rw [el_set_ne (by omega)]
        exact H1 j hjl hj2 hjeq

theorem el_concat (v : List α) (x : α) : el (v ++ [x]) v.length = x := by
  simp [el, List.getD_eq_getElem?_getD, List.getElem?_concat_length]

theorem length_insert (x : α) (v : List α) :
    (insert f x v).length = v.length + 1 := by
  rw [insert]
  split
  · simp
  · rw [length_insertLoop]
    simp

theorem el_insert_zero (x : α) (v : List α) (hv : 1 ≤ v.length) :
    el (insert f x v) 0 = el v 0 := by
  rw [insert]
  have h0 : el (v ++ [x]) 0 = el v 0 := el_append_left [x] (by omega)
  split
  · exact h0
  · rw [el_insertLoop_zero f x _ _ (by simp; omega), h0]

theorem insert_coe (x : α) (v : List α) :
    (↑(insert f x v) : Multiset α) = (↑v : Multiset α) + {x} := by
  have hxv : (↑(v ++ [x]) : Multiset α) = (↑v : Multiset α) + {x} := by
    rw [← Multiset.coe_singleton, Multiset.coe_add]
  rw [insert]
  split
  · exact hxv
  · rw [show (v ++ [x]).length - 1 = v.length from by simp]
    have h1 := insertLoop_coe f x (v ++ [x]) v.length (by simp)
    rw [el_concat] at h1
    rw [hxv] at h1
    exact add_right_cancel h1

theorem insert_IsHeap (x : α) (v : List α) (hv : IsHeap f v) (h1 : 1 ≤ v.length) :
    IsHeap f (insert f x v) := by
  rw [insert]
  split
  · rename_i hsz
    intro j hj hj2
    simp only [List.length_append, List.length_singleton] at hj hsz
    omega
  · rename_i hsz
    simp only [List.length_append, List.length_singleton] at hsz
    apply insertLoop_heap f x _ _ (by simp; omega) (by simp)
    · intro j hjl hj2 hji
      simp only [List.length_append, List.length_singleton] at hjl hji
      rw [el_append_left [x] (by omega), el_append_left [x] (by omega)]
      exact hv j (by omega) hj2
    · intro c hcl hc2
      simp only [List.length_append, List.length_singleton] at hcl hc2
      omega
    · intro h2 c hcl hc2
      simp only [List.length_append, List.length_singleton] at hcl hc2
      omega

theorem replace_error_iff [DecidableEq α] {v : List α} {i : Nat} {x : α} :
    (∃ e, replace f i x v = .error e) ↔ (i = 0 ∨ v.length - 1 < i) := by
  rw [replace]
  split
  · rename_i h
    exact ⟨fun _ => h, fun _ => ⟨_, rfl⟩⟩
  · rename_i h
    constructor
    · rintro ⟨e, he⟩
      split at he <;> try simp at he
      split at he <;> try simp at he
      split at he <;> simp at he
    · intro hc
      exact absurd hc h

/-- Full behaviour of `Heap::replace` on a valid index: it succeeds, keeps
the array length and the dummy, trades `v[i]` for the new value in the stored
multiset, and restores the heap invariant in every branch. -/
theorem replace_spec [DecidableEq α] {v : List α} {i : Nat} (x : α)
    (hi : 1 ≤ i) (hs : i ≤ v.length - 1) :
    ∃ w, replace f i x v = .ok w ∧ w.length = v.length ∧ el w 0 = el v 0 ∧
      ((↑w : Multiset α) + {el v i} = (↑v : Multiset α) + {x}) ∧
      (IsHeap f v → IsHeap f w) := by
  have hlen : 2 ≤ v.length := by omega
  rw [replace, if_neg (by omega)]
  split
  · -- strictly smaller: overwrite then sift down
    rename_i hlt
    refine ⟨_, rfl, ?_, ?_, ?_, ?_⟩
    · rw [length_heapfy, List.length_set]
    · rw [el_heapfy_zero f _ i hi, el_set_ne (by omega)]
    · rw [heapfy_coe]
      exact set_coe (by omega) x
    · intro hv
      intro j hj hj2
      rw [length_heapfy, List.length_set] at hj
      refine heapfy_restores f _ i (i := 1) (by omega) (by omega) ?_ ?_ j
        (by rw [length_heapfy, List.length_set]; omega) hj2 (by omega)
      · intro j hjl hj2 hji hjp
        rw [List.length_set] at hjl
        by_cases hjeq : j = i
        · subst hjeq
          rw [el_set_self (by omega), el_set_ne (by omega)]
          exact le_trans hlt.le (hv j (by omega) hj2)
        · rw [el_set_ne (by omega), el_set_ne (by omega)]
          exact hv j hjl hj2
      · intro c hcl hc2 hcp
        rw [List.length_set] at hcl
        have hci : c ≠ i := by omega
        rw [el_set_ne (by omega), el_set_ne (by omega)]
        exact le_trans (hv c hcl (by omega))
          (by rw [hc2]; exact hv i (by omega) (by omega))
  · rename_i hlt
    split
    · -- structurally equal: no-op
      rename_i heq
      exact ⟨v, rfl, rfl, rfl, by rw [heq], fun hv => hv⟩
    · rename_i heq
      split
      · -- heap of size one: plain overwrite
        rename_i hsz
        refine ⟨_, rfl, List.length_set v i x, ?_, set_coe (by omega) x, ?_⟩
        · rw [el_set_ne (by omega)]
        · intro hv j hj hj2
          rw [List.length_set] at hj
          omega
      · -- strictly greater: sift up
        rename_i hsz
        refine ⟨_, rfl, length_insertLoop f x v i, ?_,
          insertLoop_coe f x v i (by omega), ?_⟩
        · exact el_insertLoop_zero f x v i hi
        · intro hv
          apply insertLoop_heap f x v i hi (by omega)
          · intro j hjl hj2 hji
            exact hv j hjl hj2
          · intro c hcl hc2
            exact le_trans (hv c hcl (by omega)) (by rw [hc2]; exact le_of_not_lt hlt)
          · intro h2 c hcl hc2
            exact le_trans (hv c hcl (by omega)) (by rw [hc2]; exact hv i (by omega) h2)

theorem replace_if_greater_error_iff {v : List α} {i : Nat} {x : α} :
    (∃ e, replace_if_greater f i x v = .error e) ↔ (i = 0 ∨ v.length - 1 < i) := by
  rw [replace_if_greater]
  split
  · rename_i h
    exact ⟨fun _ => h, fun _ => ⟨_, rfl⟩⟩
  · rename_i h
    constructor
    · rintro ⟨e, he⟩
      split at he <;> simp at he
    · intro hc
      exact absurd hc h

theorem replace_if_greater_ok {v : List α} {i : Nat} (x : α)
    (hi : 1 ≤ i) (hs : i ≤ v.length - 1) :
    ∃ w, replace_if_greater f i x v = .ok w := by
  rw [replace_if_greater, if_neg (by omega)]
  split
  · exact ⟨v, rfl⟩
  · exact ⟨_, rfl⟩

/-- The `&mut self` view of `Heap::delete`: the early `return Err` leaves the
receiver untouched, so the state-passing translation pairs the result with
the unchanged array on failure. -/
def deleteOp (i : Nat) (v : List α) : Except String α × List α :=
  match delete f i v with
  | .ok (a, w) => (.ok a, w)
  | .error e => (.error e, v)

/-- The `&mut self` view of `Heap::replace`. -/
def replaceOp [DecidableEq α] (i : Nat) (x : α) (v : List α) :
    Except String Unit × List α :=
  match replace f i x v with
  | .ok w => (.ok (), w)
  | .error e => (.error e, v)

/-- The `&mut self` view of `Heap::replace_if_greater`. -/
def replaceIfGreaterOp (i : Nat) (x : α) (v : List α) :
    Except String Unit × List α :=
  match replace_if_greater f i x v with
  | .ok w => (.ok (), w)
  | .error e => (.error e, v)

theorem heapfy_tail_perm (v : List α) (i : Nat) (hi : 1 ≤ i) (hv : 1 ≤ v.length) :
    ((heapfy f v i).tail).Perm v.tail := by
  have h1 := heapfy_perm f v i
  have h2 : heapfy f v i = el v 0 :: (heapfy f v i).tail := by
    rw [← el_heapfy_zero f v i hi]
    exact cons_el_tail (by rw [length_heapfy]; omega)
  have h3 : v = el v 0 :: v.tail := cons_el_tail hv
  have h4 : (el v 0 :: (heapfy f v i).tail).Perm (el v 0 :: v.tail) := by
    rw [← h2, ← h3]
    exact h1
  exact List.Perm.cons_inv h4

theorem length_heapsortLoop : ∀ (len : Nat) (v : List α),
    (heapsortLoop f v len).length = v.length := by
  intro len
  induction len using Nat.strong_induction_on with
  | _ len ih =>
    match len with
    | 0 => intro v; rfl
    | 1 => intro v; rfl
    | n + 2 =>
      intro v
      rw [heapsortLoop]
      rw [ih (n + 1) (by omega)]
      simp [length_heapfy, length_exchange]
      omega

theorem heapsortLoop_coe : ∀ (len : Nat) (v : List α), len + 1 ≤ v.length →
    (↑(heapsortLoop f v len) : Multiset α) = ↑v := by
  intro len
  induction len using Nat.strong_induction_on with
  | _ len ih =>
    match len with
    | 0 => intro v _; rfl
    | 1 => intro v _; rfl
    | n + 2 =>
      intro v hlen
      rw [heapsortLoop]
      rw [ih (n + 1) (by omega) _ (by simp [length_heapfy, length_exchange]; omega)]
      rw [← Multiset.coe_add, heapfy_coe, Multiset.coe_add, List.take_append_drop]
      exact exchange_coe (by omega) (by omega)

theorem el_heapsortLoop_zero : ∀ (len : Nat) (v : List α), len + 1 ≤ v.length →
    el (heapsortLoop f v len) 0 = el v 0 := by
  intro len
  induction len using Nat.strong_induction_on with
  | _ len ih =>
    match len with
    | 0 => intro v _; rfl
    | 1 => intro v _; rfl
    | n + 2 =>
      intro v hlen
      rw [heapsortLoop]
      rw [ih (n + 1) (by omega) _ (by simp [length_heapfy, length_exchange]; omega)]
      rw [el_append_left _ (by rw [length_heapfy]; simp [length_exchange]; omega),
        el_heapfy_zero f _ 1 (by omega), el_take (by omega),
        el_exchange_other (by omega) (by omega)]

theorem heapsortLoop_sorted : ∀ (len : Nat) (v : List α), len + 1 ≤ v.length →
    IsHeap f (v.take (len + 1)) →
    (∀ m, len + 1 ≤ m → m + 1 < v.length → f (el v m) ≤ f (el v (m + 1))) →
    (∀ j m, 1 ≤ j → j ≤ len → len + 1 ≤ m → m < v.length → f (el v j) ≤ f (el v m)) →
    ∀ m, 1 ≤ m → m + 1 < (heapsortLoop f v len).length →
      f (el (heapsortLoop f v len) m) ≤ f (el (heapsortLoop f v len) (m + 1)) := by
  intro len
  induction len using Nat.strong_induction_on with
  | _ len ih =>
    match len with
    | 0 =>
      intro v hlen hheap hsuf hcross m hm hm1
      exact hsuf m (by omega) hm1
    | 1 =>
      intro v hlen hheap hsuf hcross m hm hm1
      by_cases hm2 : 2 ≤ m
      · exact hsuf m (by omega) hm1
      · have hm0 : m = 1 := by omega
        subst hm0
        exact hcross 1 2 (by omega) (by omega) (by omega) hm1
    | n + 2 =>
      intro v hlen hheap hsuf hcross m hm hm1
      rw [length_heapsortLoop] at hm1
      have hL : n + 3 ≤ v.length := hlen
      have hv1len : (exchange v 1 (n + 2)).length = v.length := length_exchange v _ _
      have hAlen : ((exchange v 1 (n + 2)).take (n + 2)).length = n + 2 := by
        rw [List.length_take]; omega
      have hfyAlen : (heapfy f ((exchange v 1 (n + 2)).take (n + 2)) 1).length = n + 2 := by
        rw [length_heapfy, hAlen]
      -- reading the combined array
      have helw1 : ∀ j, j < n + 2 →
          el (heapfy f ((exchange v 1 (n + 2)).take (n + 2)) 1 ++
            (exchange v 1 (n + 2)).drop (n + 2)) j
          = el (heapfy f ((exchange v 1 (n + 2)).take (n + 2)) 1) j := by
        intro j hj
        exact el_append_left _ (by omega)
      have helw2 : ∀ j, n + 2 ≤ j →
          el (heapfy f ((exchange v 1 (n + 2)).take (n + 2)) 1 ++
            (exchange v 1 (n + 2)).drop (n + 2)) j
          = el (exchange v 1 (n + 2)) j := by
        intro j hj
        rw [el_append_right _ (by omega), hfyAlen, el_drop]
        congr 1
        omega
      have helvx : ∀ j, 2 ≤ j → j ≤ n + 1 →
          el (exchange v 1 (n + 2)) j = el v j := by
        intro j h2 h3
        exact el_exchange_other (by omega) (by omega)
      have helx1 : el (exchange v 1 (n + 2)) (n + 2) = el v 1 :=
        el_exchange_snd (v := v) (j := n + 2) (by omega) 1
      have helxge : ∀ j, n + 3 ≤ j → el (exchange v 1 (n + 2)) j = el v j := by
        intro j hj
        exact el_exchange_other (by omega) (by omega)
      have htk : ∀ j, j < n + 3 → el (v.take (n + 2 + 1)) j = el v j :=
        fun j hj => el_take hj
      have htklen : (v.take (n + 2 + 1)).length = n + 3 := by
        rw [List.length_take]; omega
      -- every element of the old live region is bounded by the old root
      have hroot : ∀ k, 1 ≤ k → k ≤ n + 2 → f (el v k) ≤ f (el v 1) := by
        intro k h1 h2
        have := IsHeap.le_root f hheap k (by omega) h1
        rw [htk k (by omega), htk 1 (by omega)] at this
        exact this
      -- the sifted region is a heap again
      have hheap2 : IsHeap f (heapfy f ((exchange v 1 (n + 2)).take (n + 2)) 1) := by
        intro j hj hj2
        rw [hfyAlen] at hj
        refine heapfy_restores f _ 1 (i := 1) (by omega) (by omega) ?_
          (fun c hcl hc2 hcp => absurd hcp (by omega)) j (by rw [hfyAlen]; omega)
          hj2 (by omega)
        intro j hjl hj2 hji hjp
        rw [hAlen] at hjl
        rw [el_take (by omega), el_take (by omega), helvx j hj2 (by omega),
          el_exchange_other (by omega) (by omega)]
        have := hheap j (by omega) hj2
        rw [htk j (by omega), htk (j / 2) (by omega)] at this
        exact this
      -- elements of the sifted region are among the old live values
      have hmem : ∀ j, 1 ≤ j → j < n + 2 →
          f (el (heapfy f ((exchange v 1 (n + 2)).take (n + 2)) 1) j) ≤ f (el v 1) := by
        intro j hj1 hj2
        have hmemt : el (heapfy f ((exchange v 1 (n + 2)).take (n + 2)) 1) j ∈
            (heapfy f ((exchange v 1 (n + 2)).take (n + 2)) 1).tail := by
          rw [mem_tail_iff]
          exact ⟨j, hj1, by rw [hfyAlen]; omega, rfl⟩
        have hperm := heapfy_tail_perm f ((exchange v 1 (n + 2)).take (n + 2)) 1
          (by omega) (by omega)
        have hmemA := hperm.mem_iff.mp hmemt
        rw [mem_tail_iff] at hmemA
        obtain ⟨k, hk1, hk2, hk3⟩ := hmemA
        rw [hAlen] at hk2
        rw [hk3, el_take (by omega)]
        by_cases hk : k = 1
        · subst hk
          rw [el_exchange_fst (by omega) (by omega)]
          exact hroot (n + 2) (by omega) (by omega)
        · rw [helvx k (by omega) (by omega)]
          exact hroot k (by omega) (by omega)
      rw [heapsortLoop]
      refine ih (n + 1) (by omega) _
        (by simp [length_heapfy, length_exchange]; omega) ?_ ?_ ?_ m hm
        (by rw [length_heapsortLoop]; simp [length_heapfy, length_exchange]; omega)
      · -- the shrunk region is a heap
        intro j hj hj2
        have hts : ((heapfy f ((exchange v 1 (n + 2)).take (n + 2)) 1 ++
            (exchange v 1 (n + 2)).drop (n + 2)).take (n + 1 + 1))
            = heapfy f ((exchange v 1 (n + 2)).take (n + 2)) 1 :=
          List.take_left' (by omega)
        rw [hts] at hj ⊢
        exact hheap2 j hj hj2
      · -- the suffix stays sorted, with the extracted root on its left
        intro m hm2 hm3
        simp only [List.length_append, length_heapfy, hAlen, List.length_drop,
          hv1len] at hm3
        rw [helw2 m (by omega), helw2 (m + 1) (by omega)]
        by_cases hmeq : m = n + 2
        · subst hmeq
          rw [helx1, helxge (n + 3) (by omega)]
          exact hcross 1 (n + 3) (by omega) (by omega) (by omega) (by omega)
        · rw [helxge m (by omega), helxge (m + 1) (by omega)]
          exact hsuf m (by omega) (by omega)
      · -- cross bound between the shrunk region and the sorted suffix
        intro j m hj1 hj2 hm2 hm3
        simp only [List.length_append, length_heapfy, hAlen, List.length_drop,
          hv1len] at hm3
        rw [helw1 j (by omega), helw2 m (by omega)]
        have hjb := hmem j hj1 (by omega)
        by_cases hmeq : m = n + 2
        · subst hmeq
          rw [helx1]
          exact hjb
        · rw [helxge m (by omega)]
          exact le_trans hjb (hcross 1 m (by omega) (by omega) (by omega) (by omega))

theorem length_heapsort (v : List α) : (heapsort f v).length = v.length :=
  length_heapsortLoop f _ v

theorem heapsort_coe (v : List α) (h1 : 1 ≤ v.length) :
    (↑(heapsort f v) : Multiset α) = ↑v :=
  heapsortLoop_coe f _ v (by omega)

theorem el_heapsort_zero (v : List α) (h1 : 1 ≤ v.length) :
    el (heapsort f v) 0 = el v 0 :=
  el_heapsortLoop_zero f _ v (by omega)

theorem heapsort_tail_perm (v : List α) (h1 : 1 ≤ v.length) :
    ((heapsort f v).tail).Perm v.tail := by
  have h2 : heapsort f v = el v 0 :: (heapsort f v).tail := by
    rw [← el_heapsort_zero f v h1]
    exact cons_el_tail (by rw [length_heapsort]; omega)
  have h3 : v = el v 0 :: v.tail := cons_el_tail h1
  have h4 : (el v 0 :: (heapsort f v).tail).Perm (el v 0 :: v.tail) := by
    rw [← h2, ← h3]
    exact Multiset.coe_eq_coe.mp (heapsort_coe f v h1)
  exact List.Perm.cons_inv h4

theorem heapsort_sorted (v : List α) (hv : IsHeap f v) (h1 : 1 ≤ v.length) :
    is_sorted f (heapsort f v) := by
  have hmain := heapsortLoop_sorted f (v.length - 1) v (by omega)
    (by rw [show v.length - 1 + 1 = v.length from by omega, List.take_length]; exact hv)
    (fun m hm hm1 => absurd hm1 (by omega))
    (fun j m hj1 hj2 hm1 hm2 => absurd hm2 (by omega))
  have hlen2 : (heapsort f v).length = v.length := length_heapsort f v
  rw [is_sorted, List.chain'_iff_get]
  intro k hk
  have hget : ∀ (n : Nat) (hn : n < (heapsort f v).tail.length),
      (heapsort f v).tail.get ⟨n, hn⟩ = el (heapsort f v) (n + 1) := by
    intro n hn
    rw [List.get_eq_getElem, ← el_eq_getElem (by simpa using hn), el_tail]
  have hk' : k + 2 < v.length := by
    simp only [List.length_tail, hlen2] at hk
    omega
  have hb1 : k < (heapsort f v).tail.length := by
    simp only [List.length_tail, hlen2]
    omega
  have hb2 : k + 1 < (heapsort f v).tail.length := by
    simp only [List.length_tail, hlen2]
    omega
  rw [hget k hb1, hget (k + 1) hb2]
  exact hmain (k + 1) (by omega) (by rw [length_heapsortLoop]; omega)

theorem priority_queue_IsHeap (d0 : α) (v : List α) :
    IsHeap f (priority_queue f d0 v) :=
  build_heap_IsHeap f d0 _

theorem priority_queue_tail_coe (d0 : α) (v : List α) (h1 : 1 ≤ v.length) :
    (↑(priority_queue f d0 v).tail : Multiset α) = (↑v.tail : Multiset α) := by
  rw [priority_queue, build_tail_coe]
  by_cases hL : v.length = 1
  · have hveq : exchange v 0 (v.length - 1) = v := by
      rw [show v.length - 1 = 0 from by omega]
      unfold exchange
      rw [List.set_set, set_el_self]
    rw [hveq]
    cases v with
    | nil => simp at h1
    | cons a t =>
      simp only [List.length_cons] at hL
      have : t = [] := by
        rw [← List.length_eq_zero]
        omega
      subst this
      rfl
  · have hL2 : 2 ≤ v.length := by omega
    have hxlen : (exchange v 0 (v.length - 1)).length = v.length := length_exchange v _ _
    have hne : exchange v 0 (v.length - 1) ≠ [] := by
      intro h
      rw [← List.length_eq_zero] at h
      omega
    have h3 : (↑((exchange v 0 (v.length - 1)).dropLast) : Multiset α)
        + {(exchange v 0 (v.length - 1)).getLast hne}
        = ↑(exchange v 0 (v.length - 1)) := by
      rw [← Multiset.coe_singleton, Multiset.coe_add, List.dropLast_append_getLast hne]
    rw [List.getLast_eq_getElem, ← el_eq_getElem (by omega), hxlen,
      el_exchange_snd (by omega), exchange_coe (by omega) (by omega)] at h3
    rw [coe_cons_decomp h1, ← Multiset.singleton_add] at h3
    have h4 : (↑((exchange v 0 (v.length - 1)).dropLast) : Multiset α) + {el v 0}
        = (↑v.tail : Multiset α) + {el v 0} := by
      rw [h3, add_comm]
    exact add_right_cancel h4

theorem priority_queue_tail_perm (d0 : α) (v : List α) (h1 : 1 ≤ v.length) :
    ((priority_queue f d0 v).tail).Perm v.tail :=
  Multiset.coe_eq_coe.mp (priority_queue_tail_coe f d0 v h1)

/-- Modelled from the spec: `SortedSequence::toPriorityQueue` is described as
"reverses the sequence (ascending → descending), then re-runs build over it";
this definition follows those words (reverse the live elements `array[1..]`,
then rebuild), to be compared with `priority_queue`, the translation of the
source. -/
def toPriorityQueueSpec (d0 : α) (v : List α) : List α :=
  build_heap f d0 v.tail.reverse

theorem el_cons_pos (b : α) (t : List α) {j : Nat} (hj : 1 ≤ j) :
    el (b :: t) j = el t (j - 1) := by
  cases j with
  | zero => omega
  | succ n => rw [el_cons_succ, Nat.add_sub_cancel]

theorem set_cons_pos (b : α) (t : List α) {i : Nat} (hi : 1 ≤ i) (x : α) :
    (b :: t).set i x = b :: t.set (i - 1) x := by
  cases i with
  | zero => omega
  | succ n => rw [List.set_cons_succ, Nat.add_sub_cancel]

theorem exchange_cons (b : α) (t : List α) {i j : Nat} (hi : 1 ≤ i) (hj : 1 ≤ j) :
    exchange (b :: t) i j = b :: exchange t (i - 1) (j - 1) := by
  unfold exchange
  rw [el_cons_pos b t hj, el_cons_pos b t hi,
    set_cons_pos b t hi, set_cons_pos b _ hj]

theorem pickMax_cons (a b : α) (t : List α) (i : Nat) (hi : 1 ≤ i) :
    pickMax f (a :: t) i = pickMax f (b :: t) i := by
  have hel : ∀ j, 1 ≤ j → el (a :: t) j = el (b :: t) j := by
    intro j hj
    rw [el_cons_pos a t hj, el_cons_pos b t hj]
  have h1 : pickMax1 f (a :: t) i = pickMax1 f (b :: t) i := by
    unfold pickMax1
    rw [hel i hi, hel (2 * i) (by omega)]
  have hm1 : 1 ≤ pickMax1 f (a :: t) i := by
    have := pickMax1_cases f (a :: t) i
    omega
  unfold pickMax
  rw [h1, List.length_cons, List.length_cons, hel (2 * i + 1) (by omega),
    ← h1, hel _ hm1, h1]

theorem heapfy_cons_tail (a b : α) : ∀ (k i : Nat) (t : List α),
    t.length + 1 - i ≤ k → 1 ≤ i →
    (heapfy f (a :: t) i).tail = (heapfy f (b :: t) i).tail := by
  intro k
  induction k with
  | zero =>
    intro i t hk hi
    rw [heapfy, if_pos (by simp; omega), heapfy, if_pos (by simp; omega)]
    rfl
  | succ k ihk =>
    intro i t hk hi
    by_cases hg : (a :: t).length - 1 < 2 * i
    · rw [heapfy, if_pos hg, heapfy, if_pos (by simpa using hg)]
      rfl
    · have hpm : pickMax f (a :: t) i = pickMax f (b :: t) i := pickMax_cons f a b t i hi
      rw [heapfy, if_neg hg, heapfy, if_neg (by simpa using hg)]
      by_cases hm : pickMax f (a :: t) i = i
      · rw [dif_pos hm, dif_pos (by rw [← hpm]; exact hm)]
        rfl
      · rw [dif_neg hm, dif_neg (by rw [← hpm]; exact hm)]
        have hcs := pickMax_cases f (a :: t) i
        have hsz := pickMax_le_size f (a :: t) i (by simp at hg ⊢; omega)
        have hmx1 : 1 ≤ pickMax f (a :: t) i := by omega
        rw [exchange_cons a t hi hmx1, ← hpm, exchange_cons b t hi hmx1]
        exact ihk (pickMax f (a :: t) i) (exchange t (i - 1) (pickMax f (a :: t) i - 1))
          (by rw [length_exchange]; simp at hg hsz; omega) hmx1

theorem heapfy_cons_head (a : α) (t : List α) (i : Nat) (hi : 1 ≤ i) :
    heapfy f (a :: t) i = a :: (heapfy f (a :: t) i).tail := by
  have h0 : el (heapfy f (a :: t) i) 0 = a := by
    rw [el_heapfy_zero f _ i hi, el_cons_zero]
  have hlen : 1 ≤ (heapfy f (a :: t) i).length := by
    rw [length_heapfy]
    simp
  have h2 := cons_el_tail hlen
  rw [h0] at h2
  exact h2

theorem buildLoop_cons_tail (a b : α) (t : List α) :
    ∀ k, (buildLoop f (a :: t) k).tail = (buildLoop f (b :: t) k).tail := by
  intro k
  induction k generalizing t with
  | zero => rfl
  | succ k ih =>
    rw [buildLoop, buildLoop,
      heapfy_cons_head f a t (k + 1) (by omega),
      heapfy_cons_head f b t (k + 1) (by omega),
      heapfy_cons_tail f a b (t.length + 1) (k + 1) t (by omega) (by omega)]
    exact ih _

theorem build_head (d0 : α) (xs : List α) :
    build_heap f d0 xs = d0 :: (build_heap f d0 xs).tail := by
  have h2 := cons_el_tail (v := build_heap f d0 xs) (by rw [length_build]; omega)
  rw [el_build_zero] at h2
  exact h2

theorem build_cons_tail (d0 d1 : α) (xs : List α) :
    (build_heap f d0 xs).tail = (build_heap f d1 xs).tail :=
  buildLoop_cons_tail f d0 d1 xs _

theorem heapMax_cons (a b : α) (t : List α) :
    heapMax (a :: t) = heapMax (b :: t) := rfl

theorem dropLast_cons (a : α) {u : List α} (h : u ≠ []) :
    (a :: u).dropLast = a :: u.dropLast := by
  have h1 : 1 ≤ u.length := by
    cases u with
    | nil => exact absurd rfl h
    | cons x l => simp
  rw [List.dropLast_eq_take, List.dropLast_eq_take]
  have h2 : (a :: u).length - 1 = (u.length - 1) + 1 := by simp; omega
  rw [h2, List.take_succ_cons]

theorem extract_max_cons (a b : α) (t : List α) :
    (extract_max f (a :: t)).1 = (extract_max f (b :: t)).1 ∧
    ((extract_max f (a :: t)).2).tail = ((extract_max f (b :: t)).2).tail ∧
    (extract_max f (a :: t)).2 = a :: ((extract_max f (a :: t)).2).tail := by
  by_cases hsz : t.length = 0
  · rw [extract_max, if_pos (show (a :: t).length - 1 = 0 from by simp [hsz]),
      extract_max, if_pos (show (b :: t).length - 1 = 0 from by simp [hsz])]
    exact ⟨rfl, rfl, rfl⟩
  · have h1 : 1 ≤ t.length := by omega
    rw [extract_max, if_neg (show ¬((a :: t).length - 1 = 0) from by simp [hsz]),
      extract_max, if_neg (show ¬((b :: t).length - 1 = 0) from by simp [hsz])]
    have hxa : exchange (a :: t) 1 ((a :: t).length - 1)
        = a :: exchange t 0 (t.length - 1) := by
      rw [show (a :: t).length - 1 = t.length from by simp]
      exact exchange_cons (i := 1) (j := t.length) a t (by omega) h1
    have hxb : exchange (b :: t) 1 ((b :: t).length - 1)
        = b :: exchange t 0 (t.length - 1) := by
      rw [show (b :: t).length - 1 = t.length from by simp]
      exact exchange_cons (i := 1) (j := t.length) b t (by omega) h1
    have hxne : exchange t 0 (t.length - 1) ≠ [] := by
      intro h
      rw [← List.length_eq_zero] at h
      rw [length_exchange] at h
      omega
    dsimp only
    rw [hxa, hxb]
    have hlen : (a :: exchange t 0 (t.length - 1)).length - 1 = t.length := by
      simp [length_exchange]
    have hlen2 : (b :: exchange t 0 (t.length - 1)).length - 1 = t.length := by
      simp [length_exchange]
    refine ⟨?_, ?_, ?_⟩
    · rw [hlen, hlen2, el_cons_pos a _ (by omega), el_cons_pos b _ (by omega)]
    · rw [dropLast_cons a hxne, dropLast_cons b hxne]
      by_cases hdlne : (exchange t 0 (t.length - 1)).dropLast.length = 0
      · rw [List.length_eq_zero] at hdlne
        rw [hdlne]
        rw [heapfy, if_pos (by simp), heapfy, if_pos (by simp)]
        rfl
      · exact heapfy_cons_tail f a b
          ((exchange t 0 (t.length - 1)).dropLast.length + 1) 1 _ (by omega) (by omega)
    · rw [dropLast_cons a hxne]
      exact heapfy_cons_head f a _ 1 (by omega)

theorem deleteOp_cons (i : Nat) (a b : α) (t : List α) :
    (deleteOp f i (a :: t)).1 = (deleteOp f i (b :: t)).1 ∧
    ((deleteOp f i (a :: t)).2).tail = ((deleteOp f i (b :: t)).2).tail ∧
    (deleteOp f i (a :: t)).2 = a :: ((deleteOp f i (a :: t)).2).tail := by
  by_cases herr : i = 0 ∨ (a :: t).length - 1 < i
  · rw [deleteOp, deleteOp, delete, if_pos herr, delete, if_pos (by simpa using herr)]
    exact ⟨rfl, rfl, rfl⟩
  · have hi : 1 ≤ i := by omega
    have hit : i ≤ t.length := by simp at herr; omega
    rw [deleteOp, deleteOp, delete, if_neg herr, delete,
      if_neg (show ¬(i = 0 ∨ (b :: t).length - 1 < i) from by simpa using herr)]
    have hsame : ∀ (c : α), (if i ≠ (c :: t).length - 1 then
        exchange (c :: t) i ((c :: t).length - 1) else (c :: t))
        = c :: (if i ≠ t.length then exchange t (i - 1) (t.length - 1) else t) := by
      intro c
      simp only [List.length_cons, Nat.add_sub_cancel]
      split
      · rename_i hcond
        exact exchange_cons (i := i) (j := t.length) c t hi (by omega)
      · rfl
    rw [hsame a, hsame b]
    have hu : (if i ≠ t.length then exchange t (i - 1) (t.length - 1) else t).length
        = t.length := by
      split
      · rw [length_exchange]
      · rfl
    have hune : (if i ≠ t.length then exchange t (i - 1) (t.length - 1) else t) ≠ [] := by
      intro h
      rw [← List.length_eq_zero, hu] at h
      omega
    dsimp only
    refine ⟨?_, ?_, ?_⟩
    · rw [show (a :: (if i ≠ t.length then exchange t (i - 1) (t.length - 1)
          else t)).length - 1 = t.length from by
            rw [List.length_cons, Nat.add_sub_cancel, hu],
        show (b :: (if i ≠ t.length then exchange t (i - 1) (t.length - 1)
          else t)).length - 1 = t.length from by
            rw [List.length_cons, Nat.add_sub_cancel, hu],
        el_cons_pos a _ (by omega), el_cons_pos b _ (by omega)]
    · rw [dropLast_cons a hune, dropLast_cons b hune]
      exact heapfy_cons_tail f a b
        ((if i ≠ t.length then exchange t (i - 1) (t.length - 1)
          else t).dropLast.length + 1) i _ (by omega) (by omega)
    · rw [dropLast_cons a hune]
      exact heapfy_cons_head f a _ i (by omega)

theorem insertLoop_cons_tail (x a b : α) : ∀ (i : Nat) (t : List α), 1 ≤ i →
    (insertLoop f x (a :: t) i).tail = (insertLoop f x (b :: t) i).tail := by
  intro i
  induction i using Nat.strong_induction_on with
  | _ i ih =>
    intro t hi
    have hel : 1 < i → el (a :: t) (i / 2) = el (b :: t) (i / 2) := by
      intro h2
      rw [el_cons_pos a t (by omega), el_cons_pos b t (by omega)]
    by_cases hc : 1 < i ∧ f (el (a :: t) (i / 2)) < f x
    · have hcb : 1 < i ∧ f (el (b :: t) (i / 2)) < f x :=
        ⟨hc.1, by rw [← hel hc.1]; exact hc.2⟩
      rw [insertLoop]
      conv_rhs => rw [insertLoop]
      rw [dif_pos hc, dif_pos hcb,
        el_cons_pos a t (by omega), el_cons_pos b t (by omega),
        set_cons_pos a t (by omega), set_cons_pos b t (by omega)]
      exact ih (i / 2) (by omega) _ (by omega)
    · have hcb : ¬(1 < i ∧ f (el (b :: t) (i / 2)) < f x) := by
        intro h
        exact hc ⟨h.1, by rw [hel h.1]; exact h.2⟩
      rw [insertLoop, dif_neg hc, insertLoop, dif_neg hcb,
        set_cons_pos a t (by omega), set_cons_pos b t (by omega)]
      rfl

theorem insertLoop_cons_head (x a : α) (t : List α) (i : Nat) (hi : 1 ≤ i) :
    insertLoop f x (a :: t) i = a :: (insertLoop f x (a :: t) i).tail := by
  have h0 : el (insertLoop f x (a :: t) i) 0 = a := by
    rw [el_insertLoop_zero f x _ i hi, el_cons_zero]
  have hlen : 1 ≤ (insertLoop f x (a :: t) i).length := by
    rw [length_insertLoop]
    simp
  have h2 := cons_el_tail hlen
  rw [h0] at h2
  exact h2

theorem insert_cons (x a b : α) (t : List α) :
    (insert f x (a :: t)).tail = (insert f x (b :: t)).tail ∧
    insert f x (a :: t) = a :: (insert f x (a :: t)).tail := by
  have hca : (a :: t) ++ [x] = a :: (t ++ [x]) := by simp
  have hcb : (b :: t) ++ [x] = b :: (t ++ [x]) := by simp
  by_cases hsz : ((a :: t) ++ [x]).length - 1 = 1
  · rw [insert, if_pos hsz, insert, if_pos (by simpa using hsz)]
    rw [hca, hcb]
    exact ⟨rfl, rfl⟩
  · rw [insert, if_neg hsz, insert, if_neg (by simpa using hsz)]
    have hlen : ((a :: t) ++ [x]).length - 1 = t.length + 1 := by simp
    have hlenb : ((b :: t) ++ [x]).length - 1 = t.length + 1 := by simp
    rw [hlen, hlenb, hca, hcb]
    exact ⟨insertLoop_cons_tail f x a b (t.length + 1) (t ++ [x]) (by omega),
      insertLoop_cons_head f x a (t ++ [x]) (t.length + 1) (by omega)⟩

theorem replaceOp_cons [DecidableEq α] (i : Nat) (x a b : α) (t : List α) :
    (replaceOp f i x (a :: t)).1 = (replaceOp f i x (b :: t)).1 ∧
    ((replaceOp f i x (a :: t)).2).tail = ((replaceOp f i x (b :: t)).2).tail ∧
    (replaceOp f i x (a :: t)).2 = a :: ((replaceOp f i x (a :: t)).2).tail := by
  by_cases herr : i = 0 ∨ (a :: t).length - 1 < i
  · rw [replaceOp, replaceOp, replace, if_pos herr, replace,
      if_pos (show i = 0 ∨ (b :: t).length - 1 < i from by simpa using herr)]
    exact ⟨rfl, rfl, rfl⟩
  · have hi : 1 ≤ i := by omega
    have hit : i ≤ t.length := by simp at herr; omega
    have hel : el (a :: t) i = el (b :: t) i := by
      rw [el_cons_pos a t hi, el_cons_pos b t hi]
    rw [replaceOp, replaceOp, replace, if_neg herr, replace,
      if_neg (show ¬(i = 0 ∨ (b :: t).length - 1 < i) from by simpa using herr)]
    by_cases hlt : f x < f (el (a :: t) i)
    · rw [if_pos hlt, if_pos (show f x < f (el (b :: t) i) from hel ▸ hlt),
        set_cons_pos a t hi, set_cons_pos b t hi]
      refine ⟨rfl, ?_, ?_⟩
      · exact heapfy_cons_tail f a b ((t.set (i - 1) x).length + 1) i _
          (by rw [List.length_set]; omega) hi
      · exact heapfy_cons_head f a _ i hi
    · rw [if_neg hlt, if_neg (show ¬(f x < f (el (b :: t) i)) from hel ▸ hlt)]
      by_cases heqq : x = el (a :: t) i
      · rw [if_pos heqq, if_pos (show x = el (b :: t) i from hel ▸ heqq)]
        exact ⟨rfl, rfl, rfl⟩
      · rw [if_neg heqq, if_neg (show ¬(x = el (b :: t) i) from hel ▸ heqq)]
        by_cases hsz : (a :: t).length - 1 = 1
        · rw [if_pos hsz, if_pos (show (b :: t).length - 1 = 1 from by simpa using hsz),
            set_cons_pos a t hi, set_cons_pos b t hi]
          exact ⟨rfl, rfl, rfl⟩
        · rw [if_neg hsz,
            if_neg (show ¬((b :: t).length - 1 = 1) from by simpa using hsz)]
          exact ⟨rfl, insertLoop_cons_tail f x a b i t hi,
            insertLoop_cons_head f x a t i hi⟩

/-- The priority-queue operations of an operation sequence (§C10): the live
`Heap<T, PriorityQueue>` methods with an observable result. -/
inductive HOp (β : Type) where
  | ins (x : β)
  | emax
  | del (i : Nat)
  | rep (i : Nat) (x : β)
  | peek

/-- One step of an operation sequence: the new heap state and the observed
result of the operation. -/
def stepOp [DecidableEq α] (v : List α) : HOp α → List α × Except String (Option α)
  | .ins x => (insert f x v, .ok none)
  | .emax => ((extract_max f v).2, .ok (extract_max f v).1)
  | .del i => ((deleteOp f i v).2, (deleteOp f i v).1.map some)
  | .rep i x => ((replaceOp f i x v).2, (replaceOp f i x v).1.map (fun _ => none))
  | .peek => (v, .ok (heapMax v))

/-- Run a whole operation sequence, collecting the observations. -/
def runOps [DecidableEq α] (v : List α) :
    List (HOp α) → List α × List (Except String (Option α))
  | [] => (v, [])
  | op :: ops =>
    let s := stepOp f v op
    let r := runOps s.1 ops
    (r.1, s.2 :: r.2)

theorem stepOp_cons [DecidableEq α] (a b : α) (t : List α) (op : HOp α) :
    (stepOp f (a :: t) op).2 = (stepOp f (b :: t) op).2 ∧
    ((stepOp f (a :: t) op).1).tail = ((stepOp f (b :: t) op).1).tail ∧
    (stepOp f (a :: t) op).1 = a :: ((stepOp f (a :: t) op).1).tail := by
  cases op with
  | ins x =>
    obtain ⟨h1, h2⟩ := insert_cons f x a b t
    exact ⟨rfl, h1, h2⟩
  | emax =>
    obtain ⟨h1, h2, h3⟩ := extract_max_cons f a b t
    exact ⟨by rw [stepOp, stepOp, h1], h2, h3⟩
  | del i =>
    obtain ⟨h1, h2, h3⟩ := deleteOp_cons f i a b t
    exact ⟨by rw [stepOp, stepOp, h1], h2, h3⟩
  | rep i x =>
    obtain ⟨h1, h2, h3⟩ := replaceOp_cons f i x a b t
    exact ⟨by rw [stepOp, stepOp, h1], h2, h3⟩
  | peek =>
    exact ⟨by rw [stepOp, stepOp, heapMax_cons], rfl, rfl⟩

theorem runOps_cons [DecidableEq α] (ops : List (HOp α)) :
    ∀ (a b : α) (t : List α),
    (runOps f (a :: t) ops).2 = (runOps f (b :: t) ops).2 ∧
    ((runOps f (a :: t) ops).1).tail = ((runOps f (b :: t) ops).1).tail ∧
    (runOps f (a :: t) ops).1 = a :: ((runOps f (a :: t) ops).1).tail := by
  induction ops with
  | nil => exact fun a b t => ⟨rfl, rfl, rfl⟩
  | cons op ops ih =>
    intro a b t
    obtain ⟨hobs, htail, hhead⟩ := stepOp_cons f a b t op
    obtain ⟨hobsb, htailb, hheadb⟩ := stepOp_cons f b a t op
    have hb : (stepOp f (b :: t) op).1 = b :: ((stepOp f (a :: t) op).1).tail := by
      rw [hheadb, ← htail]
    obtain ⟨rec1, rec2, rec3⟩ := ih a b ((stepOp f (a :: t) op).1).tail
    refine ⟨?_, ?_, ?_⟩
    · simp only [runOps]
      rw [hobs, hhead, hb, rec1]
    · simp only [runOps]
      rw [hhead, hb]
      exact rec2
    · simp only [runOps]
      rw [hhead]
      exact rec3

theorem heapsortLoop_cons_tail : ∀ (len : Nat) (a b : α) (t : List α),
    (heapsortLoop f (a :: t) len).tail = (heapsortLoop f (b :: t) len).tail := by
  intro len
  induction len using Nat.strong_induction_on with
  | _ len ih =>
    match len with
    | 0 => intro a b t; rfl
    | 1 => intro a b t; rfl
    | n + 2 =>
      intro a b t
      rw [heapsortLoop, heapsortLoop]
      have hxa : exchange (a :: t) 1 (n + 2) = a :: exchange t 0 (n + 1) :=
        exchange_cons (i := 1) (j := n + 2) a t (by omega) (by omega)
      have hxb : exchange (b :: t) 1 (n + 2) = b :: exchange t 0 (n + 1) :=
        exchange_cons (i := 1) (j := n + 2) b t (by omega) (by omega)
      rw [hxa, hxb, List.take_succ_cons, List.take_succ_cons,
        List.drop_succ_cons, List.drop_succ_cons,
        heapfy_cons_head f a ((exchange t 0 (n + 1)).take (n + 1)) 1 (by omega),
        heapfy_cons_head f b ((exchange t 0 (n + 1)).take (n + 1)) 1 (by omega),
        heapfy_cons_tail f a b (((exchange t 0 (n + 1)).take (n + 1)).length + 1) 1
          ((exchange t 0 (n + 1)).take (n + 1)) (by omega) (by omega),
        List.cons_append, List.cons_append]
      exact ih (n + 1) (by omega) a b _

theorem heapsort_cons_tail (a b : α) (t : List α) :
    (heapsort f (a :: t)).tail = (heapsort f (b :: t)).tail := by
  rw [heapsort, heapsort, show (a :: t).length - 1 = t.length from by simp,
    show (b :: t).length - 1 = t.length from by simp]
  exact heapsortLoop_cons_tail f t.length a b t

end BinHeap

namespace DAry

open BinHeap (el exchange el_set_self el_set_ne set_el_self length_exchange
  el_exchange_snd el_exchange_fst el_exchange_other set_coe exchange_coe
  el_eq_getElem cons_el_tail el_tail mem_tail_iff el_cons_succ el_cons_zero
  el_append_left el_concat el_dropLast el_take)

/-- The `for j in children_range!(parent, degree)` scan inside
`DAryHeap::heapfy`: walk the up-to-`degree` children starting at
`parent * degree + 1`, breaking at the end of the array, and keep the index of
the largest value seen (starting from `mx = parent`).  The fuel argument is
the number of range elements left, initially `degree`. -/
def scanChildren (v : List Int) (mx : Nat) (j : Nat) : Nat → Nat
  | 0 => mx
  | fuel + 1 =>
    if v.length ≤ j then mx
    else scanChildren v (if el v mx < el v j then j else mx) (j + 1) fuel

theorem scanChildren_cases (v : List Int) : ∀ (fuel j mx : Nat),
    scanChildren v mx j fuel = mx ∨
    (j ≤ scanChildren v mx j fuel ∧ scanChildren v mx j fuel < v.length ∧
      scanChildren v mx j fuel < j + fuel) := by
  intro fuel
  induction fuel with
  | zero => intro j mx; left; rfl
  | succ fuel ih =>
    intro j mx
    rw [scanChildren]
    split
    · left; rfl
    · rename_i hlt
      rcases ih (j + 1) (if el v mx < el v j then j else mx) with h | h
      · rw [h]
        split
        · right
          exact ⟨le_refl j, by omega, by omega⟩
        · left; rfl
      · right
        exact ⟨by omega, h.2.1, by omega⟩

theorem scanChildren_le (v : List Int) : ∀ (fuel j mx : Nat),
    el v mx ≤ el v (scanChildren v mx j fuel) := by
  intro fuel
  induction fuel with
  | zero => intro j mx; exact le_refl _
  | succ fuel ih =>
    intro j mx
    rw [scanChildren]
    split
    · exact le_refl _
    · refine le_trans ?_ (ih (j + 1) _)
      split
      · rename_i h; exact h.le
      · exact le_refl _

theorem scanChildren_lt_of_ne (v : List Int) : ∀ (fuel j mx : Nat),
    scanChildren v mx j fuel ≠ mx → el v mx < el v (scanChildren v mx j fuel) := by
  intro fuel
  induction fuel with
  | zero => intro j mx h; exact absurd rfl h
  | succ fuel ih =>
    intro j mx h
    rw [scanChildren] at h ⊢
    by_cases hlen : v.length ≤ j
    · rw [if_pos hlen] at h
      exact absurd rfl h
    · rw [if_neg hlen] at h ⊢
      by_cases hupd : el v mx < el v j
      · rw [if_pos hupd] at h ⊢
        by_cases hr : scanChildren v j (j + 1) fuel = j
        · rw [hr]; exact hupd
        · exact lt_trans hupd (ih (j + 1) j hr)
      · rw [if_neg hupd] at h ⊢
        exact ih (j + 1) mx h

theorem scanChildren_child_le (v : List Int) : ∀ (fuel j mx : Nat) (c : Nat),
    j ≤ c → c < j + fuel → c < v.length →
    el v c ≤ el v (scanChildren v mx j fuel) := by
  intro fuel
  induction fuel with
  | zero => intro j mx c h1 h2; omega
  | succ fuel ih =>
    intro j mx c h1 h2 h3
    rw [scanChildren]
    split
    · omega
    · rename_i hlt
      by_cases hc : c = j
      · subst hc
        refine le_trans ?_ (scanChildren_le v fuel (c + 1) _)
        split
        · exact le_refl _
        · rename_i hupd
          exact le_of_not_lt hupd
      · exact ih (j + 1) _ c (by omega) (by omega) h3

/-- `DAryHeap::heapfy`: repeatedly pick the largest of the current node and
its (at most `d`) children, swap and continue below until the node dominates
its children.  (`heapfy` asserts `i < len` in the source; the assert is
modelled separately by the checked variants.) -/
def dheapfyLoop (d : Nat) (v : List Int) (p : Nat) : List Int :=
  let mx := scanChildren v p (p * d + 1) d
  if _h : mx = p then v
  else dheapfyLoop d (exchange v mx p) mx
termination_by v.length - p
decreasing_by
  rcases scanChildren_cases v d (p * d + 1) p with h | h
  · exact absurd h _h
  · have hd : 1 ≤ d := by omega
    have hpd : p ≤ p * d := Nat.le_mul_of_pos_right p (by omega)
    simp only [length_exchange]
    omega

def dheapfy (d : Nat) (v : List Int) (i : Nat) : List Int := dheapfyLoop d v i

/-- The shifting sift-up loop shared by `DAryHeap::insert` and the growing
branch of `DAryHeap::replace`; the source breaks out of the loop when `i`
reaches 0 before recomputing the parent (avoiding the `0 - 1` underflow). -/
def dSiftUp (d : Nat) (x : Int) (v : List Int) (i : Nat) : List Int :=
  if el v ((i - 1) / d) < x then
    if (i - 1) / d = 0 then (v.set i (el v ((i - 1) / d))).set 0 x
    else dSiftUp d x (v.set i (el v ((i - 1) / d))) ((i - 1) / d)
  else v.set i x
termination_by i
decreasing_by
  rename_i hlt hne
  have := Nat.div_le_self (i - 1) d
  omega

/-- `DAryHeap::insert`. -/
def dinsert (d : Nat) (x : Int) (v : List Int) : List Int :=
  let v1 := v ++ [x]
  if v1.length - 1 = 0 then v1
  else dSiftUp d x v1 (v1.length - 1)

/-- `DAryHeap::extract_max`. -/
def dextract_max (d : Nat) (v : List Int) : Option Int × List Int :=
  if v.length = 0 then (none, v)
  else
    let v1 := exchange v 0 (v.length - 1)
    (some (el v1 (v1.length - 1)),
      if 1 < v1.dropLast.length then dheapfy d v1.dropLast 0 else v1.dropLast)

/-- `DAryHeap::replace`: equality first (no-op), then strictly smaller
(overwrite + sift down), then the root case, then the sift-up loop. -/
def dreplace (d : Nat) (i : Nat) (x : Int) (v : List Int) :
    Except String (List Int) :=
  if v.length ≤ i then .error "i for replacement is out of range"
  else if x = el v i then .ok v
  else if x < el v i then .ok (dheapfy d (v.set i x) i)
  else if i = 0 then .ok (v.set i x)
  else .ok (dSiftUp d x v i)

/-- The descending loop of `DAryHeap::build_heap`, running `heapfy` at
`i, i-1, ..., 0`. -/
def dbuildLoop (d : Nat) (v : List Int) : Nat → List Int
  | 0 => dheapfy d v 0
  | i + 1 => dbuildLoop d (dheapfy d v (i + 1)) i

/-- `DAryHeap::build_heap`: nothing to do on an empty array, otherwise sift
down every index from `(len - 1) / degree` down to 0. -/
def dbuild_heap (d : Nat) (v : List Int) : List Int :=
  if v.length = 0 then v else dbuildLoop d v ((v.length - 1) / d)

/-- `DAryHeap::new`: `assert!(degree > 0)` then `build_heap`; the failed
assertion (a panic) is modelled as `none`. -/
def dnew (degree : Nat) (initial : List Int) : Option (List Int) :=
  if 0 < degree then some (dbuild_heap degree initial) else none

/-- The max-heap invariant of the 0-based d-ary heap: every index `j ≥ 1` is
bounded by its parent `(j - 1) / d`. -/
def IsDHeap (d : Nat) (v : List Int) : Prop :=
  ∀ j, j < v.length → 1 ≤ j → el v j ≤ el v ((j - 1) / d)

instance (d : Nat) (v : List Int) : Decidable (IsDHeap d v) := by
  unfold IsDHeap
  infer_instance

theorem pd_eq_iff {d : Nat} (hd : 1 ≤ d) {j : Nat} (p : Nat) (hj : 1 ≤ j) :
    (j - 1) / d = p ↔ (p * d + 1 ≤ j ∧ j ≤ p * d + d) := by
  constructor
  · intro h
    have h1 : p * d ≤ j - 1 := by
      rw [← Nat.le_div_iff_mul_le (by omega)]
      omega
    have h2 : j - 1 < (p + 1) * d := by
      rw [← Nat.div_lt_iff_lt_mul (by omega)]
      omega
    rw [add_mul, one_mul] at h2
    omega
  · rintro ⟨h1, h2⟩
    have h3 : p ≤ (j - 1) / d := by
      rw [Nat.le_div_iff_mul_le (by omega)]
      omega
    have h4 : (j - 1) / d < p + 1 := by
      rw [Nat.div_lt_iff_lt_mul (by omega), add_mul, one_mul]
      omega
    omega

theorem dheapfyLoop_rec_facts (d : Nat) (v : List Int) (p : Nat)
    (h : scanChildren v p (p * d + 1) d ≠ p) :
    p < scanChildren v p (p * d + 1) d ∧
    scanChildren v p (p * d + 1) d < v.length ∧ 1 ≤ d ∧
    p * d + 1 ≤ scanChildren v p (p * d + 1) d ∧
    scanChildren v p (p * d + 1) d ≤ p * d + d ∧ p < v.length := by
  rcases scanChildren_cases v d (p * d + 1) p with hc | hc
  · exact absurd hc h
  · have hd : 1 ≤ d := by omega
    have hpd : p ≤ p * d := Nat.le_mul_of_pos_right p (by omega)
    exact ⟨by omega, hc.2.1, hd, by omega, by omega, by omega⟩

theorem length_dheapfyLoop (d : Nat) (v : List Int) (p : Nat) :
    (dheapfyLoop d v p).length = v.length := by
  induction v, p using dheapfyLoop.induct d with
  | case1 v p mx hmx => rw [dheapfyLoop, dif_pos hmx]
  | case2 v p mx hmx ih =>
    rw [dheapfyLoop, dif_neg hmx]
    rw [ih, length_exchange]

theorem dheapfyLoop_coe (d : Nat) (v : List Int) (p : Nat) :
    (↑(dheapfyLoop d v p) : Multiset Int) = ↑v := by
  induction v, p using dheapfyLoop.induct d with
  | case1 v p mx hmx => rw [dheapfyLoop, dif_pos hmx]
  | case2 v p mx hmx ih =>
    rw [dheapfyLoop, dif_neg hmx, ih]
    obtain ⟨h1, h2, h3, h4, h5, h6⟩ := dheapfyLoop_rec_facts d v p hmx
    exact exchange_coe h2 h6

theorem IsDHeap.le_root_d {d : Nat} {v : List Int} (hv : IsDHeap d v) :
    ∀ j, j < v.length → el v j ≤ el v 0 := by
  intro j
  induction j using Nat.strong_induction_on with
  | _ j ihj =>
    intro hj
    by_cases hj1 : 1 ≤ j
    · have hlt : (j - 1) / d < j := by
        have := Nat.div_le_self (j - 1) d
        omega
      exact le_trans (hv j hj hj1) (ihj ((j - 1) / d) hlt (by omega))
    · have : j = 0 := by omega
      subst this
      exact le_refl _

/-- Core correctness of the d-ary sift-down, the analogue of
`BinHeap.heapfy_restores` with parent `(j - 1) / d` and children
`[p*d + 1, p*d + d]`. -/
theorem dheapfy_restores (d : Nat) (hd : 1 ≤ d) : ∀ (v : List Int) (p i : Nat),
    i ≤ p →
    (∀ j, j < v.length → 1 ≤ j → i ≤ (j - 1) / d → (j - 1) / d ≠ p →
      el v j ≤ el v ((j - 1) / d)) →
    (∀ c, c < v.length → (c - 1) / d = p → 1 ≤ p → i ≤ (p - 1) / d →
      el v c ≤ el v ((p - 1) / d)) →
    ∀ j, j < (dheapfyLoop d v p).length → 1 ≤ j → i ≤ (j - 1) / d →
      el (dheapfyLoop d v p) j ≤ el (dheapfyLoop d v p) ((j - 1) / d) := by
  intro v p
  induction v, p using dheapfyLoop.induct d with
  | case1 v p mx hmx =>
    intro i hip Hq G j hj hj1 hji
    rw [dheapfyLoop, dif_pos hmx] at hj ⊢
    by_cases hjp : (j - 1) / d = p
    · have hjb := (pd_eq_iff hd p hj1).mp hjp
      have hle := scanChildren_child_le v d (p * d + 1) p j hjb.1 (by omega) hj
      rw [show scanChildren v p (p * d + 1) d = p from hmx] at hle
      rw [hjp]
      exact hle
    · exact Hq j hj hj1 hji hjp
  | case2 v p mx hmx ih =>
    intro i hip Hq G j hj hj1 hji
    obtain ⟨hpmx, hmxlen, _hd2, hmxlo, hmxhi, hplen⟩ := dheapfyLoop_rec_facts d v p hmx
    have hstrict : el v p < el v mx := scanChildren_lt_of_ne v d (p * d + 1) p hmx
    have hchild : ∀ c, c < v.length → 1 ≤ c → (c - 1) / d = p → el v c ≤ el v mx := by
      intro c hcl hc1 hcp
      have hb := (pd_eq_iff hd p hc1).mp hcp
      exact scanChildren_child_le v d (p * d + 1) p c hb.1 (by omega) hcl
    have hpdmx : (mx - 1) / d = p := (pd_eq_iff hd p (by omega)).mpr ⟨hmxlo, hmxhi⟩
    rw [dheapfyLoop, dif_neg hmx] at hj ⊢
    refine ih i (by omega) ?_ ?_ j hj hj1 hji
    · intro j hjl hj1 hji hjmx
      rw [length_exchange] at hjl
      by_cases hjp : (j - 1) / d = p
      · by_cases hjmxeq : j = mx
        · subst hjmxeq
          rw [el_exchange_fst hmxlen (by omega), hjp, el_exchange_snd hplen mx]
          exact hstrict.le
        · have hjb := (pd_eq_iff hd p hj1).mp hjp
          have hjne : j ≠ p := by
            have hpd : p ≤ p * d := Nat.le_mul_of_pos_right p (by omega)
            omega
          rw [el_exchange_other hjmxeq hjne, hjp, el_exchange_snd hplen mx]
          exact hchild j hjl hj1 hjp
      · by_cases hjq : j = p
        · subst hjq
          rw [el_exchange_snd hplen mx]
          have hdiv := Nat.div_le_self (j - 1) d
          have hppd : (j - 1) / d ≠ j := by omega
          have hppdmx : (j - 1) / d ≠ mx := by omega
          rw [el_exchange_other hppdmx hppd]
          exact G mx hmxlen hpdmx hj1 hji
        · have hjmxeq : j ≠ mx := fun hcontra => hjp (by rw [hcontra]; exact hpdmx)
          rw [el_exchange_other hjmxeq hjq, el_exchange_other hjmx hjp]
          exact Hq j hjl hj1 hji hjp
    · intro c hcl hcmx hmx1 hipdmx
      rw [length_exchange] at hcl
      rw [hpdmx] at hipdmx ⊢
      have hc1 : 1 ≤ c := by
        by_contra h0
        have hc0 : c = 0 := by omega
        subst hc0
        rw [show (0 - 1) / d = 0 from by simp] at hcmx
        omega
      have hcb := (pd_eq_iff hd mx hc1).mp hcmx
      have hmxd : mx ≤ mx * d := Nat.le_mul_of_pos_right mx (by omega)
      have hcp : c ≠ p := by omega
      have hcmxne : c ≠ mx := by omega
      rw [el_exchange_other hcmxne hcp, el_exchange_snd hplen mx]
      have hq := Hq c hcl hc1 (by omega) (by rw [hcmx]; omega)
      rw [hcmx] at hq
      exact hq

theorem set_set_coe {v : List Int} {i p : Nat} (hi : i < v.length)
    (hp : p < v.length) (hne : p ≠ i) (x : Int) :
    (↑((v.set i (el v p)).set p x) : Multiset Int) = ↑(v.set i x) := by
  have h1 := set_coe hi (el v p)
  have h2 : (↑((v.set i (el v p)).set p x) : Multiset Int) + {el (v.set i (el v p)) p}
      = ↑(v.set i (el v p)) + {x} :=
    set_coe (by rw [List.length_set]; omega) x
  rw [el_set_ne (fun h => hne h.symm)] at h2
  have h3 := set_coe hi x
  have h4 : (↑((v.set i (el v p)).set p x) : Multiset Int) + {el v p} + {el v i}
      = (↑(v.set i x) + {el v i}) + {el v p} := by
    calc (↑((v.set i (el v p)).set p x) : Multiset Int) + {el v p} + {el v i}
        = (↑(v.set i (el v p)) + {x}) + {el v i} := by rw [h2]
      _ = (↑(v.set i (el v p)) + {el v i}) + {x} := by rw [add_right_comm]
      _ = (↑v + {el v p}) + {x} := by rw [h1]
      _ = (↑v + {x}) + {el v p} := by rw [add_right_comm]
      _ = (↑(v.set i x) + {el v i}) + {el v p} := by rw [h3]
  have h5 : ((↑((v.set i (el v p)).set p x) : Multiset Int) + {el v i}) + {el v p}
      = (↑(v.set i x) + {el v i}) + {el v p} := by
    rw [← h4, add_right_comm]
  exact add_right_cancel (add_right_cancel h5)

theorem length_dSiftUp (d : Nat) (x : Int) : ∀ (i : Nat) (v : List Int),
    (dSiftUp d x v i).length = v.length := by
  intro i
  induction i using Nat.strong_induction_on with
  | _ i ih =>
    intro v
    rw [dSiftUp]
    split
    · split
      · rw [List.length_set, List.length_set]
      · rename_i hlt hp0
        have hdle := Nat.div_le_self (i - 1) d
        rw [ih ((i - 1) / d) (by omega), List.length_set]
    · rw [List.length_set]

theorem dSiftUp_coe (d : Nat) (x : Int) : ∀ (i : Nat) (v : List Int), i < v.length →
    (↑(dSiftUp d x v i) : Multiset Int) = ↑(v.set i x) := by
  intro i
  induction i using Nat.strong_induction_on with
  | _ i ih =>
    intro v hi
    rw [dSiftUp]
    split
    · rename_i hlt
      have hdle := Nat.div_le_self (i - 1) d
      split
      · rename_i hp0
        by_cases hi0 : i = 0
        · subst hi0
          rw [hp0, List.set_set]
        · rw [hp0]
          exact set_set_coe hi (by omega) (by omega) x
      · rename_i hp0
        have hpi : (i - 1) / d < i := by omega
        rw [ih ((i - 1) / d) hpi _ (by rw [List.length_set]; omega)]
        exact set_set_coe hi (by omega) (by omega) x
    · rfl

/-- Correctness of the d-ary sift-up loop: pairs hold everywhere except at
`i`, the children of `i` are bounded by the inserted value and by the value
at the parent of `i`; then the loop restores the d-ary heap shape. -/
theorem dSiftUp_heap (d : Nat) (hd : 1 ≤ d) (x : Int) :
    ∀ (i : Nat) (v : List Int), 1 ≤ i → i < v.length →
    (∀ j, j < v.length → 1 ≤ j → j ≠ i → el v j ≤ el v ((j - 1) / d)) →
    (∀ c, c < v.length → (c - 1) / d = i → el v c ≤ x) →
    (∀ c, c < v.length → (c - 1) / d = i → el v c ≤ el v ((i - 1) / d)) →
    IsDHeap d (dSiftUp d x v i) := by
  intro i
  induction i using Nat.strong_induction_on with
  | _ i ih =>
    intro v hi1 hilen H1 H2 H3
    have hdle : (i - 1) / d ≤ i - 1 := Nat.div_le_self (i - 1) d
    have hid : i ≤ i * d := Nat.le_mul_of_pos_right i (by omega)
    rw [dSiftUp]
    split
    · rename_i hlt
      split
      · -- the parent is the root: shift, break, write at 0
        rename_i hp0
        rw [hp0] at hlt H3 ⊢
        intro j hj hj1
        rw [List.length_set, List.length_set] at hj
        have e0 : el ((v.set i (el v 0)).set 0 x) 0 = x :=
          el_set_self (by rw [List.length_set]; omega) x
        have eI : el ((v.set i (el v 0)).set 0 x) i = el v 0 := by
          rw [el_set_ne (show (0 : Nat) ≠ i from by omega), el_set_self hilen]
        have eO : ∀ k, k ≠ 0 → k ≠ i →
            el ((v.set i (el v 0)).set 0 x) k = el v k := by
          intro k h0 hk
          rw [el_set_ne (fun h => h0 h.symm), el_set_ne (fun h => hk h.symm)]
        by_cases hjeq : j = i
        · subst hjeq
          rw [hp0, eI, e0]
          exact hlt.le
        · by_cases hjc : (j - 1) / d = i
          · have hjb := (pd_eq_iff hd i hj1).mp hjc
            rw [hjc, eO j (by omega) (by omega), eI]
            exact H3 j hj hjc
          · by_cases hjp0 : (j - 1) / d = 0
            · rw [hjp0, eO j (by omega) hjeq, e0]
              have h1 := H1 j hj hj1 hjeq
              rw [hjp0] at h1
              exact le_trans h1 hlt.le
            · rw [eO j (by omega) hjeq, eO ((j - 1) / d) hjp0 hjc]
              exact H1 j hj hj1 hjeq
      · -- shift and continue from the parent
        rename_i hp0
        have hp1 : 1 ≤ (i - 1) / d := Nat.one_le_iff_ne_zero.mpr hp0
        have hpi : (i - 1) / d < i := by omega
        refine ih ((i - 1) / d) hpi _ hp1 (by rw [List.length_set]; omega)
          ?_ ?_ ?_
        · intro j hjl hj1 hjp
          rw [List.length_set] at hjl
          by_cases hjeq : j = i
          · subst hjeq
            rw [el_set_self hilen, el_set_ne (by omega)]
          · rw [el_set_ne (by omega)]
            by_cases hjc : (j - 1) / d = i
            · rw [hjc, el_set_self hilen]
              exact H3 j hjl hjc
            · rw [el_set_ne (by omega)]
              exact H1 j hjl hj1 hjeq
        · intro c hcl hcp
          rw [List.length_set] at hcl
          by_cases hceq : c = i
          · subst hceq
            rw [el_set_self hilen]
            exact hlt.le
          · rw [el_set_ne (show i ≠ c from fun h => hceq h.symm)]
            have hc1 : 1 ≤ c := by
              by_contra h0
              have hc0 : c = 0 := by omega
              subst hc0
              rw [show (0 - 1) / d = 0 from by simp] at hcp
              omega
            have h1 := H1 c hcl hc1 hceq
            rw [hcp] at h1
            exact le_trans h1 hlt.le
        · intro c hcl hcp
          rw [List.length_set] at hcl
          have hdle2 : ((i - 1) / d - 1) / d ≤ (i - 1) / d - 1 :=
            Nat.div_le_self ((i - 1) / d - 1) d
          have hne : i ≠ ((i - 1) / d - 1) / d := by
            intro h
            have h1 : ((i - 1) / d - 1) / d < (i - 1) / d :=
              Nat.lt_of_le_of_lt hdle2 (Nat.sub_lt (by omega) Nat.one_pos)
            rw [← h] at h1
            exact absurd (Nat.lt_trans h1 hpi) (lt_irrefl i)
          rw [el_set_ne hne]
          have hpp := H1 ((i - 1) / d) (by omega) hp1 (by omega)
          by_cases hceq : c = i
          · subst hceq
            rw [el_set_self hilen]
            exact hpp
          · rw [el_set_ne (show i ≠ c from fun h => hceq h.symm)]
            have hc1 : 1 ≤ c := by
              by_contra h0
              have hc0 : c = 0 := by omega
              subst hc0
              rw [show (0 - 1) / d = 0 from by simp] at hcp
              omega
            have h1 := H1 c hcl hc1 hceq
            rw [hcp] at h1
            exact le_trans h1 hpp
    · -- the loop condition fails: write x at i
      rename_i hnlt
      intro j hj hj1
      rw [List.length_set] at hj
      by_cases hjeq : j = i
      · subst hjeq
        rw [el_set_self hilen, el_set_ne (by omega)]
        exact le_of_not_lt hnlt
      · rw [el_set_ne (by omega)]
        by_cases hjc : (j - 1) / d = i
        · rw [hjc, el_set_self hilen]
          exact H2 j hj hjc
        · rw [el_set_ne (by omega)]
          exact H1 j hj hj1 hjeq

theorem dheapfy_eq (d : Nat) (v : List Int) (i : Nat) :
    dheapfy d v i = dheapfyLoop d v i := rfl

theorem child_pos {d : Nat} {c p : Nat} (hp : 1 ≤ p) (hcp : (c - 1) / d = p) :
    1 ≤ c := by
  by_contra h0
  have hc0 : c = 0 := by omega
  subst hc0
  rw [show (0 - 1) / d = 0 from by simp] at hcp
  omega

/-- Sift-down at `p` turns "all pairs except the children of `p`, and the
children of `p` bounded by the value above `p`" into the full d-ary heap
invariant. -/
theorem dheapfy_IsDHeap (d : Nat) (hd : 1 ≤ d) (v : List Int) (p : Nat)
    (Hq : ∀ j, j < v.length → 1 ≤ j → (j - 1) / d ≠ p →
      el v j ≤ el v ((j - 1) / d))
    (G : ∀ c, c < v.length → (c - 1) / d = p → 1 ≤ p →
      el v c ≤ el v ((p - 1) / d)) :
    IsDHeap d (dheapfy d v p) := by
  intro j hj hj1
  exact dheapfy_restores d hd v p 0 (Nat.zero_le _)
    (fun j hjl hj1 _ hjp => Hq j hjl hj1 hjp)
    (fun c hcl hcp hp1 _ => G c hcl hcp hp1) j hj hj1 (Nat.zero_le _)

theorem length_dbuildLoop (d : Nat) : ∀ (i : Nat) (v : List Int),
    (dbuildLoop d v i).length = v.length := by
  intro i
  induction i with
  | zero =>
    intro v
    simp only [dbuildLoop]
    rw [dheapfy_eq, length_dheapfyLoop]
  | succ i ih =>
    intro v
    simp only [dbuildLoop]
    rw [ih, dheapfy_eq, length_dheapfyLoop]

theorem dbuildLoop_coe (d : Nat) : ∀ (i : Nat) (v : List Int),
    (↑(dbuildLoop d v i) : Multiset Int) = ↑v := by
  intro i
  induction i with
  | zero =>
    intro v
    simp only [dbuildLoop]
    rw [dheapfy_eq, dheapfyLoop_coe]
  | succ i ih =>
    intro v
    simp only [dbuildLoop]
    rw [ih, dheapfy_eq, dheapfyLoop_coe]

/-- The descending build loop establishes the invariant: when entering
iteration `i`, all pairs whose parent lies strictly above `i` already hold. -/
theorem dbuildLoop_heap (d : Nat) (hd : 1 ≤ d) : ∀ (i : Nat) (v : List Int),
    (∀ j, j < v.length → 1 ≤ j → i + 1 ≤ (j - 1) / d →
      el v j ≤ el v ((j - 1) / d)) →
    IsDHeap d (dbuildLoop d v i) := by
  intro i
  induction i with
  | zero =>
    intro v H
    simp only [dbuildLoop]
    refine dheapfy_IsDHeap d hd v 0 ?_ ?_
    · intro j hjl hj1 hjp
      exact H j hjl hj1 (Nat.one_le_iff_ne_zero.mpr hjp)
    · intro c hcl hcp hp1
      exact absurd hp1 (by omega)
  | succ i ih =>
    intro v H
    simp only [dbuildLoop]
    refine ih _ ?_
    intro j hjl hj1 hji
    rw [dheapfy_eq] at hjl
    rw [dheapfy_eq]
    refine dheapfy_restores d hd v (i + 1) (i + 1) (le_refl _)
      ?_ ?_ j hjl hj1 hji
    · intro j hjl hj1 hji hjp
      exact H j hjl hj1
        (Nat.succ_le_of_lt (Nat.lt_of_le_of_ne hji (fun hc => hjp hc.symm)))
    · intro c hcl hcp hp1 hip
      have hdle : (i + 1 - 1) / d ≤ i := Nat.div_le_self i d
      exact absurd (le_trans hip hdle) (Nat.not_succ_le_self i)

theorem length_dbuild_heap (d : Nat) (v : List Int) :
    (dbuild_heap d v).length = v.length := by
  unfold dbuild_heap
  split
  · rfl
  · rw [length_dbuildLoop]

theorem dbuild_heap_coe (d : Nat) (v : List Int) :
    (↑(dbuild_heap d v) : Multiset Int) = ↑v := by
  unfold dbuild_heap
  split
  · rfl
  · rw [dbuildLoop_coe]

/-- `DAryHeap::build_heap` establishes the d-ary heap invariant. -/
theorem dbuild_heap_IsDHeap (d : Nat) (hd : 1 ≤ d) (v : List Int) :
    IsDHeap d (dbuild_heap d v) := by
  unfold dbuild_heap
  split
  · rename_i h0
    intro j hj hj1
    omega
  · rename_i h0
    refine dbuildLoop_heap d hd _ v ?_
    intro j hjl hj1 hji
    exfalso
    have hmono : (j - 1) / d ≤ (v.length - 1) / d :=
      Nat.div_le_div_right (by omega)
    omega

theorem dinsert_eq (d : Nat) (x : Int) (v : List Int) :
    dinsert d x v = if (v ++ [x]).length - 1 = 0 then v ++ [x]
      else dSiftUp d x (v ++ [x]) ((v ++ [x]).length - 1) := rfl

theorem length_dinsert (d : Nat) (x : Int) (v : List Int) :
    (dinsert d x v).length = v.length + 1 := by
  rw [dinsert_eq]
  split
  · simp
  · rw [length_dSiftUp]
    simp

theorem dinsert_coe (d : Nat) (x : Int) (v : List Int) :
    (↑(dinsert d x v) : Multiset Int) = ↑v + {x} := by
  rw [dinsert_eq]
  split
  · rw [← Multiset.coe_singleton, Multiset.coe_add]
  · rename_i h
    have hlen : (v ++ [x]).length - 1 = v.length := by simp
    rw [hlen, dSiftUp_coe d x v.length (v ++ [x]) (by simp)]
    have hx : el (v ++ [x]) v.length = x := el_concat v x
    have h2 := set_coe (show v.length < (v ++ [x]).length from by simp) x
    rw [hx] at h2
    rw [add_right_cancel h2, ← Multiset.coe_singleton, Multiset.coe_add]

/-- `DAryHeap::insert` preserves the d-ary heap invariant. -/
theorem dinsert_IsDHeap (d : Nat) (hd : 1 ≤ d) {v : List Int}
    (hv : IsDHeap d v) (x : Int) : IsDHeap d (dinsert d x v) := by
  rw [dinsert_eq]
  split
  · rename_i h
    have hv0 : v = [] := by
      have h2 : (v ++ [x]).length = v.length + 1 := by simp
      have : v.length = 0 := by omega
      exact List.eq_nil_of_length_eq_zero this
    subst hv0
    intro j hj hj1
    simp at hj
    omega
  · rename_i h
    have hlen : (v ++ [x]).length = v.length + 1 := by simp
    have hv1 : 1 ≤ v.length := by
      have h2 : (v ++ [x]).length = v.length + 1 := by simp
      omega
    rw [show (v ++ [x]).length - 1 = v.length from by simp]
    refine dSiftUp_heap d hd x v.length (v ++ [x]) hv1 (by simp) ?_ ?_ ?_
    · intro j hjl hj1 hjne
      rw [hlen] at hjl
      have hj : j < v.length := by omega
      have hp : (j - 1) / d < v.length := by
        have := Nat.div_le_self (j - 1) d
        omega
      rw [el_append_left [x] hj, el_append_left [x] hp]
      exact hv j hj hj1
    · intro c hcl hcp
      exfalso
      rw [hlen] at hcl
      have hc1 : 1 ≤ c := child_pos hv1 hcp
      have hcb := (pd_eq_iff hd v.length hc1).mp hcp
      have hvd := Nat.le_mul_of_pos_right v.length (show 0 < d from hd)
      omega
    · intro c hcl hcp
      exfalso
      rw [hlen] at hcl
      have hc1 : 1 ≤ c := child_pos hv1 hcp
      have hcb := (pd_eq_iff hd v.length hc1).mp hcp
      have hvd := Nat.le_mul_of_pos_right v.length (show 0 < d from hd)
      omega

theorem dextract_max_none_iff (d : Nat) (v : List Int) :
    (dextract_max d v).1 = none ↔ v.length = 0 := by
  unfold dextract_max
  split
  · rename_i h
    simpa using h
  · rename_i h
    simp only []
    exact ⟨fun hc => absurd hc (by simp), fun hc => absurd hc h⟩

/-- `DAryHeap::extract_max` on a non-empty heap: it returns the root (the
maximum), the remaining array is one shorter, loses exactly the returned
element, and is again a d-ary heap. -/
theorem dextract_max_spec (d : Nat) (hd : 1 ≤ d) {v : List Int}
    (hv : IsDHeap d v) (hne0 : v.length ≠ 0) :
    ∃ w, dextract_max d v = (some (el v 0), w) ∧
      w.length = v.length - 1 ∧
      (↑w : Multiset Int) + {el v 0} = ↑v ∧
      IsDHeap d w ∧
      (∀ y ∈ v, y ≤ el v 0) := by
  have hmax : ∀ y ∈ v, y ≤ el v 0 := by
    intro y hy
    obtain ⟨j, hj, hje⟩ := List.mem_iff_getElem.mp hy
    rw [← hje, ← el_eq_getElem hj]
    exact hv.le_root_d j hj
  have hxlen : (exchange v 0 (v.length - 1)).length = v.length :=
    length_exchange v _ _
  have hlast : el (exchange v 0 (v.length - 1)) (v.length - 1) = el v 0 :=
    el_exchange_snd (by omega) 0
  have hdllen : ((exchange v 0 (v.length - 1)).dropLast).length = v.length - 1 := by
    rw [List.length_dropLast, hxlen]
  have hnen : exchange v 0 (v.length - 1) ≠ [] := by
    intro hc
    rw [← List.length_eq_zero] at hc
    omega
  have hcoe : (↑((exchange v 0 (v.length - 1)).dropLast) : Multiset Int)
      + {el v 0} = ↑v := by
    have h3 : (↑((exchange v 0 (v.length - 1)).dropLast) : Multiset Int)
        + {(exchange v 0 (v.length - 1)).getLast hnen}
        = ↑(exchange v 0 (v.length - 1)) := by
      rw [← Multiset.coe_singleton, Multiset.coe_add,
        List.dropLast_append_getLast hnen]
    rw [List.getLast_eq_getElem, ← el_eq_getElem (by omega), hxlen, hlast,
      exchange_coe (by omega) (by omega)] at h3
    exact h3
  have hdel : ∀ j, j < v.length - 1 →
      el ((exchange v 0 (v.length - 1)).dropLast) j
      = el (exchange v 0 (v.length - 1)) j := by
    intro j hj
    exact el_dropLast (by omega)
  unfold dextract_max
  rw [if_neg hne0]
  simp only []
  rw [hxlen, hlast]
  split
  · rename_i hgt
    rw [hdllen] at hgt
    refine ⟨_, rfl, ?_, ?_, ?_, hmax⟩
    · rw [dheapfy_eq, length_dheapfyLoop, hdllen]
    · rw [dheapfy_eq, dheapfyLoop_coe, hcoe]
    · refine dheapfy_IsDHeap d hd _ 0 ?_ ?_
      · intro j hjl hj1 hjp
        rw [hdllen] at hjl
        have hdiv : (j - 1) / d ≤ j - 1 := Nat.div_le_self (j - 1) d
        have hp1 : 1 ≤ (j - 1) / d := Nat.one_le_iff_ne_zero.mpr hjp
        rw [hdel j hjl, hdel ((j - 1) / d) (by omega),
          el_exchange_other (by omega) (by omega),
          el_exchange_other (by omega) (by omega)]
        exact hv j (by omega) hj1
      · intro c hcl hcp hp1
        exact absurd hp1 (by omega)
  · rename_i hle
    rw [hdllen] at hle
    refine ⟨_, rfl, hdllen, hcoe, ?_, hmax⟩
    intro j hj hj1
    rw [hdllen] at hj
    omega

theorem dreplace_error_iff (d : Nat) (i : Nat) (x : Int) (v : List Int) :
    (∃ e, dreplace d i x v = .error e) ↔ v.length ≤ i := by
  unfold dreplace
  split
  · rename_i h
    exact ⟨fun _ => h, fun _ => ⟨_, rfl⟩⟩
  · rename_i h
    refine ⟨?_, fun hc => absurd hc h⟩
    rintro ⟨e, he⟩
    split at he
    · exact Except.noConfusion he
    · split at he
      · exact Except.noConfusion he
      · split at he
        · exact Except.noConfusion he
        · exact Except.noConfusion he

/-- `DAryHeap::replace` as a state transformer: the source method mutates in
place and returns `Result<(), _>`; the out-of-range branch returns before any
write, leaving the array unchanged. -/
def dreplaceOp (d : Nat) (i : Nat) (x : Int) (v : List Int) :
    List Int × Option String :=
  match dreplace d i x v with
  | .ok w => (w, none)
  | .error e => (v, some e)

theorem dreplaceOp_error_unchanged (d : Nat) {i : Nat} (x : Int)
    {v : List Int} (h : v.length ≤ i) :
    dreplaceOp d i x v = (v, some "i for replacement is out of range") := by
  unfold dreplaceOp dreplace
  rw [if_pos h]

/-- `DAryHeap::replace` at an in-range index: it succeeds, keeps the length,
swaps exactly the replaced element for the new one in the stored multiset,
and restores the d-ary heap invariant. -/
theorem dreplace_spec (d : Nat) (hd : 1 ≤ d) {v : List Int} (hv : IsDHeap d v)
    {i : Nat} (hi : i < v.length) (x : Int) :
    ∃ w, dreplace d i x v = .ok w ∧ w.length = v.length ∧
      (↑w : Multiset Int) + {el v i} = ↑v + {x} ∧ IsDHeap d w := by
  unfold dreplace
  rw [if_neg (by omega)]
  by_cases heq : x = el v i
  · rw [if_pos heq]
    refine ⟨v, rfl, rfl, ?_, hv⟩
    rw [heq]
  · rw [if_neg heq]
    by_cases hlt : x < el v i
    · rw [if_pos hlt]
      refine ⟨_, rfl, ?_, ?_, ?_⟩
      · rw [dheapfy_eq, length_dheapfyLoop, List.length_set]
      · rw [dheapfy_eq, dheapfyLoop_coe]
        exact set_coe hi x
      · refine dheapfy_IsDHeap d hd _ i ?_ ?_
        · intro j hjl hj1 hjp
          rw [List.length_set] at hjl
          by_cases hji : j = i
          · subst hji
            have hpi : (j - 1) / d < j := by
              have := Nat.div_le_self (j - 1) d
              omega
            rw [el_set_self hi x, el_set_ne (show j ≠ (j - 1) / d from by omega)]
            exact le_trans hlt.le (hv j hi hj1)
          · rw [el_set_ne (fun hc => hji hc.symm),
              el_set_ne (fun hc => hjp hc.symm)]
            exact hv j hjl hj1
        · intro c hcl hcp hp1
          rw [List.length_set] at hcl
          have hc1 : 1 ≤ c := child_pos hp1 hcp
          have hcb := (pd_eq_iff hd i hc1).mp hcp
          have hidd := Nat.le_mul_of_pos_right i (show 0 < d from hd)
          have hpi : (i - 1) / d < i := by
            have := Nat.div_le_self (i - 1) d
            omega
          rw [el_set_ne (show i ≠ c from by omega),
            el_set_ne (show i ≠ (i - 1) / d from by omega)]
          have h1 := hv c hcl hc1
          rw [hcp] at h1
          exact le_trans h1 (hv i hi hp1)
    · rw [if_neg hlt]
      have hgt : el v i < x := lt_of_le_of_ne (le_of_not_lt hlt) (Ne.symm heq)
      by_cases hi0 : i = 0
      · rw [if_pos hi0]
        subst hi0
        refine ⟨_, rfl, by rw [List.length_set], set_coe hi x, ?_⟩
        intro j hjl hj1
        rw [List.length_set] at hjl
        rw [el_set_ne (show (0 : Nat) ≠ j from by omega)]
        by_cases hp0 : (j - 1) / d = 0
        · rw [hp0, el_set_self hi x]
          have h1 := hv j hjl hj1
          rw [hp0] at h1
          exact le_trans h1 hgt.le
        · rw [el_set_ne (show (0 : Nat) ≠ (j - 1) / d from fun hc => hp0 hc.symm)]
          exact hv j hjl hj1
      · rw [if_neg hi0]
        refine ⟨_, rfl, ?_, ?_, ?_⟩
        · rw [length_dSiftUp]
        · rw [dSiftUp_coe d x i v hi]
          exact set_coe hi x
        · refine dSiftUp_heap d hd x i v (by omega) hi ?_ ?_ ?_
          · intro j hjl hj1 hjne
            exact hv j hjl hj1
          · intro c hcl hcp
            have hc1 : 1 ≤ c := child_pos (by omega) hcp
            have h1 := hv c hcl hc1
            rw [hcp] at h1
            exact le_trans h1 hgt.le
          · intro c hcl hcp
            have hc1 : 1 ≤ c := child_pos (by omega) hcp
            have h1 := hv c hcl hc1
            rw [hcp] at h1
            exact le_trans h1 (hv i hi (by omega))

/-- Checked variant of the child scan: every `self.array[..]` read of the
source is guarded by its bound, a failed bound (a panic) returning `none`. -/
def scanChildrenCk (v : List Int) (mx j : Nat) : Nat → Option Nat
  | 0 => some mx
  | fuel + 1 =>
    if v.length ≤ j then some mx
    else if j < v.length ∧ mx < v.length then
      scanChildrenCk v (if el v mx < el v j then j else mx) (j + 1) fuel
    else none

theorem scanChildrenCk_eq (v : List Int) : ∀ (fuel j mx : Nat), mx < v.length →
    scanChildrenCk v mx j fuel = some (scanChildren v mx j fuel) := by
  intro fuel
  induction fuel with
  | zero =>
    intro j mx h
    rfl
  | succ fuel ih =>
    intro j mx hmx
    rw [scanChildrenCk, scanChildren]
    by_cases hj : v.length ≤ j
    · rw [if_pos hj, if_pos hj]
    · rw [if_neg hj, if_neg hj,
        if_pos (show j < v.length ∧ mx < v.length from ⟨by omega, hmx⟩)]
      by_cases hupd : el v mx < el v j
      · rw [if_pos hupd]
        exact ih (j + 1) j (by omega)
      · rw [if_neg hupd]
        exact ih (j + 1) mx hmx

/-- Checked variant of the `DAryHeap::heapfy` loop: the scan and the
`exchange!` accesses are bound-checked, a failure returning `none`. -/
def dheapfyLoopCk (d : Nat) (v : List Int) (p : Nat) : Option (List Int) :=
  match _hs : scanChildrenCk v p (p * d + 1) d with
  | none => none
  | some mx =>
    if _hmx : mx = p then some v
    else if hb : mx < v.length ∧ p < v.length then
      dheapfyLoopCk d (exchange v mx p) mx
    else none
termination_by v.length - p
decreasing_by
  rw [scanChildrenCk_eq v d (p * d + 1) p hb.2] at _hs
  injection _hs with h3
  rcases scanChildren_cases v d (p * d + 1) p with hc | hc
  · exact absurd (h3.symm.trans hc) _hmx
  · rw [h3] at hc
    have hd1 : 1 ≤ d := by omega
    have hpd : p ≤ p * d := Nat.le_mul_of_pos_right p (by omega)
    simp only [length_exchange]
    omega

theorem dheapfyLoopCk_eq (d : Nat) : ∀ (v : List Int) (p : Nat), p < v.length →
    dheapfyLoopCk d v p = some (dheapfyLoop d v p) := by
  intro v p
  induction v, p using dheapfyLoop.induct d with
  | case1 v p mx hmx =>
    intro hp
    rw [dheapfyLoopCk, dheapfyLoop, dif_pos hmx]
    split
    · rename_i heq
      rw [scanChildrenCk_eq v d (p * d + 1) p hp] at heq
      exact Option.noConfusion heq
    · rename_i mx2 heq
      rw [scanChildrenCk_eq v d (p * d + 1) p hp] at heq
      injection heq with h3
      subst h3
      rw [dif_pos hmx]
  | case2 v p mx hmx ih =>
    intro hp
    obtain ⟨hpmx, hmxlen, _hd1, hmxlo, hmxhi, hplen⟩ :=
      dheapfyLoop_rec_facts d v p hmx
    rw [dheapfyLoopCk, dheapfyLoop, dif_neg hmx]
    split
    · rename_i heq
      rw [scanChildrenCk_eq v d (p * d + 1) p hp] at heq
      exact Option.noConfusion heq
    · rename_i mx2 heq
      rw [scanChildrenCk_eq v d (p * d + 1) p hp] at heq
      injection heq with h3
      subst h3
      rw [dif_neg hmx, dif_pos ⟨hmxlen, hp⟩]
      exact ih (by rw [length_exchange]; exact hmxlen)

/-- Checked `DAryHeap::heapfy`: the source opens with
`assert!(i < self.array.len())`; a failed assertion is `none`. -/
def dheapfyCk (d : Nat) (v : List Int) (i : Nat) : Option (List Int) :=
  if i < v.length then dheapfyLoopCk d v i else none

theorem dheapfyCk_eq (d : Nat) {v : List Int} {i : Nat} (h : i < v.length) :
    dheapfyCk d v i = some (dheapfy d v i) := by
  unfold dheapfyCk
  rw [if_pos h, dheapfy_eq]
  exact dheapfyLoopCk_eq d v i h

/-- Checked sift-up loop of `DAryHeap::insert`/`replace`: the `parent!`
macro divides by the degree (a zero degree panics), and each array access is
bound-checked. -/
def dSiftUpCk (d : Nat) (x : Int) (v : List Int) (i : Nat) :
    Option (List Int) :=
  if d = 0 then none
  else if _h1 : (i - 1) / d < v.length then
    if el v ((i - 1) / d) < x then
      if _h2 : i < v.length then
        if (i - 1) / d = 0 then some ((v.set i (el v ((i - 1) / d))).set 0 x)
        else dSiftUpCk d x (v.set i (el v ((i - 1) / d))) ((i - 1) / d)
      else none
    else if _h2 : i < v.length then some (v.set i x) else none
  else none
termination_by i
decreasing_by
  rename_i hd0 hlt hp0
  have := Nat.div_le_self (i - 1) d
  omega

theorem dSiftUpCk_eq (d : Nat) (hd : 1 ≤ d) (x : Int) :
    ∀ (i : Nat) (v : List Int), i < v.length →
    dSiftUpCk d x v i = some (dSiftUp d x v i) := by
  intro i
  induction i using Nat.strong_induction_on with
  | _ i ih =>
    intro v hi
    have hple : (i - 1) / d ≤ i - 1 := Nat.div_le_self (i - 1) d
    have hp1 : (i - 1) / d < v.length := by omega
    rw [dSiftUpCk, dSiftUp, if_neg (show ¬ d = 0 from by omega), dif_pos hp1]
    by_cases hlt : el v ((i - 1) / d) < x
    · rw [if_pos hlt, if_pos hlt, dif_pos hi]
      by_cases hp0 : (i - 1) / d = 0
      · rw [if_pos hp0, if_pos hp0]
      · rw [if_neg hp0, if_neg hp0]
        have h1 : 1 ≤ (i - 1) / d := Nat.one_le_iff_ne_zero.mpr hp0
        have hpi : (i - 1) / d < i := by omega
        exact ih ((i - 1) / d) hpi _ (by rw [List.length_set]; omega)
    · rw [if_neg hlt, if_neg hlt, dif_pos hi]

/-- Checked `DAryHeap::insert`. -/
def dinsertCk (d : Nat) (x : Int) (v : List Int) : Option (List Int) :=
  let v1 := v ++ [x]
  if v1.length - 1 = 0 then some v1
  else dSiftUpCk d x v1 (v1.length - 1)

theorem dinsertCk_eq (d : Nat) (hd : 1 ≤ d) (x : Int) (v : List Int) :
    dinsertCk d x v = some (dinsert d x v) := by
  rw [dinsert_eq]
  unfold dinsertCk
  dsimp only
  by_cases h : (v ++ [x]).length - 1 = 0
  · rw [if_pos h, if_pos h]
  · rw [if_neg h, if_neg h]
    refine dSiftUpCk_eq d hd x _ _ ?_
    have h2 : (v ++ [x]).length = v.length + 1 := by simp
    omega

/-- Checked `DAryHeap::extract_max`: the `exchange!` indices are
bound-checked; the rest of the body cannot index out of bounds. -/
def dextract_maxCk (d : Nat) (v : List Int) : Option (Option Int × List Int) :=
  if v.length = 0 then some (none, v)
  else if v.length - 1 < v.length then
    let v1 := exchange v 0 (v.length - 1)
    match (if 1 < v1.dropLast.length then dheapfyCk d v1.dropLast 0
        else some v1.dropLast) with
    | some w => some (some (el v1 (v1.length - 1)), w)
    | none => none
  else none

theorem dextract_maxCk_eq (d : Nat) (v : List Int) :
    dextract_maxCk d v = some (dextract_max d v) := by
  unfold dextract_maxCk dextract_max
  by_cases h0 : v.length = 0
  · rw [if_pos h0, if_pos h0]
  · rw [if_neg h0, if_neg h0,
      if_pos (show v.length - 1 < v.length from by omega)]
    dsimp only
    by_cases hgt : 1 < (exchange v 0 (v.length - 1)).dropLast.length
    · have hck := dheapfyCk_eq d
        (show (0 : Nat) < (exchange v 0 (v.length - 1)).dropLast.length from
          by omega)
      rw [if_pos hgt, if_pos hgt, hck]
    · rw [if_neg hgt, if_neg hgt]

/-- Checked `DAryHeap::replace`. -/
def dreplaceCk (d : Nat) (i : Nat) (x : Int) (v : List Int) :
    Option (Except String (List Int)) :=
  if v.length ≤ i then some (.error "i for replacement is out of range")
  else if i < v.length then
    if x = el v i then some (.ok v)
    else if x < el v i then
      match dheapfyCk d (v.set i x) i with
      | some w => some (.ok w)
      | none => none
    else if i = 0 then some (.ok (v.set i x))
    else
      match dSiftUpCk d x v i with
      | some w => some (.ok w)
      | none => none
  else none

theorem dreplaceCk_eq (d : Nat) (hd : 1 ≤ d) (i : Nat) (x : Int)
    (v : List Int) : dreplaceCk d i x v = some (dreplace d i x v) := by
  unfold dreplaceCk dreplace
  by_cases hge : v.length ≤ i
  · rw [if_pos hge, if_pos hge]
  · rw [if_neg hge, if_neg hge, if_pos (show i < v.length from by omega)]
    by_cases heq : x = el v i
    · rw [if_pos heq, if_pos heq]
    · rw [if_neg heq, if_neg heq]
      by_cases hlt : x < el v i
      · have hck := dheapfyCk_eq d
          (show i < (v.set i x).length from by rw [List.length_set]; omega)
        rw [if_pos hlt, if_pos hlt, hck]
      · rw [if_neg hlt, if_neg hlt]
        by_cases hi0 : i = 0
        · rw [if_pos hi0, if_pos hi0]
        · rw [if_neg hi0, if_neg hi0, dSiftUpCk_eq d hd x i v (by omega)]

/-- Checked `DAryHeap::build_heap` loop. -/
def dbuildLoopCk (d : Nat) (v : List Int) : Nat → Option (List Int)
  | 0 => dheapfyCk d v 0
  | i + 1 =>
    match dheapfyCk d v (i + 1) with
    | some w => dbuildLoopCk d w i
    | none => none

theorem dbuildLoopCk_eq (d : Nat) : ∀ (i : Nat) (v : List Int),
    i < v.length → dbuildLoopCk d v i = some (dbuildLoop d v i) := by
  intro i
  induction i with
  | zero =>
    intro v h
    simp only [dbuildLoopCk, dbuildLoop]
    exact dheapfyCk_eq d h
  | succ i ih =>
    intro v h
    simp only [dbuildLoopCk, dbuildLoop]
    rw [dheapfyCk_eq d h]
    refine ih _ ?_
    rw [dheapfy_eq, length_dheapfyLoop]
    omega

/-- Checked `DAryHeap::build_heap`: the starting index `(len - 1) / degree`
divides by the degree, so a zero degree panics here. -/
def dbuild_heapCk (d : Nat) (v : List Int) : Option (List Int) :=
  if v.length = 0 then some v
  else if d = 0 then none
  else dbuildLoopCk d v ((v.length - 1) / d)

theorem dbuild_heapCk_eq (d : Nat) (hd : 1 ≤ d) (v : List Int) :
    dbuild_heapCk d v = some (dbuild_heap d v) := by
  unfold dbuild_heapCk dbuild_heap
  by_cases h0 : v.length = 0
  · rw [if_pos h0, if_pos h0]
  · rw [if_neg h0, if_neg h0, if_neg (show ¬ d = 0 from by omega)]
    refine dbuildLoopCk_eq d _ v ?_
    have := Nat.div_le_self (v.length - 1) d
    omega

/-- Checked `DAryHeap::new`. -/
def dnewCk (degree : Nat) (initial : List Int) : Option (List Int) :=
  if 0 < degree then dbuild_heapCk degree initial else none

theorem dnewCk_eq (degree : Nat) (initial : List Int) :
    dnewCk degree initial = dnew degree initial := by
  unfold dnewCk dnew
  by_cases h : 0 < degree
  · rw [if_pos h, if_pos h, dbuild_heapCk_eq degree h initial]
  · rw [if_neg h, if_neg h]

end DAry

/-! ## `merge_sorted_list.rs`: k-way merge through the binary heap

`IndexValue(usize, T)` is embedded as `Nat × Int`; its `PartialOrd`
compares only the second component, so the heap runs with the key
projection `Prod.snd`, while `==` (derived `PartialEq`, used inside
`Heap::replace`) is full structural equality.  The loop can in principle
panic (`expect` on `max`/`replace`, slice indexing), so it is embedded as
an `Option`-returning function, `none` standing for a panic; the
correctness theorem shows the panics never fire. -/

namespace Merge

open BinHeap (el IsHeap build_heap extract_max replace heapMax size
  mem_tail_iff cons_el_tail coe_cons_decomp el_eq_getElem)

theorem replace_ok_length {α : Type} [Inhabited α] [DecidableEq α]
    (f : α → Int) {i : Nat} {x : α} {v w : List α}
    (h : BinHeap.replace f i x v = .ok w) : w.length = v.length := by
  unfold BinHeap.replace at h
  split at h
  · exact Except.noConfusion h
  · split at h
    · injection h with h2
      subst h2
      rw [BinHeap.length_heapfy, List.length_set]
    · split at h
      · injection h with h2
        subst h2
        rfl
      · split at h
        · injection h with h2
          subst h2
          rw [List.length_set]
        · injection h with h2
          subst h2
          rw [BinHeap.length_insertLoop]

/-- `usize::checked_sub`. -/
def checkedSub (a b : Nat) : Option Nat := if b ≤ a then some (a - b) else none

/-- The `initial_array` built by the first loop of `merge_sorted`: one
`IndexValue(i, list[last_index])` per non-empty input list. -/
def mergeInitArray (lists : List (List Int)) : List (Nat × Int) :=
  lists.enum.filterMap (fun p =>
    if p.2.length = 0 then none else some (p.1, el p.2 (p.2.length - 1)))

/-- The `indices` vector after the first loop: `Some(0)` everywhere, then
`last_index.checked_sub(1)` for each non-empty list. -/
def mergeInitIdx (lists : List (List Int)) : List (Option Nat) :=
  lists.map (fun l => if l.length = 0 then some 0 else checkedSub (l.length - 1) 1)

/-- Termination measure helper: total weight of the pending cursors. -/
def idxWeight : List (Option Nat) → Nat
  | [] => 0
  | some c :: t => c + 1 + idxWeight t
  | none :: t => idxWeight t

theorem idxWeight_set : ∀ (idxs : List (Option Nat)) (j c : Nat),
    idxs[j]? = some (some c) →
    idxWeight (idxs.set j (checkedSub c 1)) + 1 = idxWeight idxs := by
  intro idxs
  induction idxs with
  | nil =>
    intro j c h
    simp at h
  | cons a t ih =>
    intro j c h
    cases j with
    | zero =>
      rw [List.getElem?_cons_zero] at h
      injection h with h2
      subst h2
      rw [List.set_cons_zero]
      unfold checkedSub
      by_cases hc : 1 ≤ c
      · rw [if_pos hc]
        simp only [idxWeight]
        omega
      · rw [if_neg hc]
        simp only [idxWeight]
        omega
    | succ n =>
      rw [List.getElem?_cons_succ] at h
      rw [List.set_cons_succ]
      have h2 := ih n c h
      cases a with
      | none =>
        simp only [idxWeight]
        omega
      | some b =>
        simp only [idxWeight]
        omega

/-- The main loop of `merge_sorted`: while the heap is non-empty, read the
max `(list_index, value)`; if that source still has a pending element,
`replace` the root with it and step the cursor down, otherwise
`extract_max`; push `value`.  Any panic (a failed `expect`, an
out-of-bounds read) is `none`. -/
def mergeLoop (lists : List (List Int)) (v : List (Nat × Int))
    (idxs : List (Option Nat)) (acc : List Int) : Option (List Int) :=
  if _h1 : 1 ≤ v.length - 1 then
    match _hm : v[1]? with
    | none => none
    | some jv =>
      match _hj : idxs[jv.1]? with
      | none => none
      | some (some c) =>
        match _hl : lists[jv.1]? with
        | none => none
        | some lj =>
          if _hc : c < lj.length then
            match _hr : replace Prod.snd 1 (jv.1, el lj c) v with
            | .error _ => none
            | .ok w =>
              mergeLoop lists w (idxs.set jv.1 (checkedSub c 1)) (acc ++ [jv.2])
          else none
      | some none =>
        mergeLoop lists (extract_max Prod.snd v).2 idxs (acc ++ [jv.2])
  else some acc
termination_by (v.length - 1) + idxWeight idxs
decreasing_by
  · have hw := replace_ok_length Prod.snd _hr
    have h2 := idxWeight_set idxs jv.1 c _hj
    omega
  · have hext := (BinHeap.extract_max_spec Prod.snd _h1).2.1
    omega

/-- `merge_sorted`: build the heap over the initial array (dummy slot
`IndexValue::default()`), run the loop, reverse the accumulated output. -/
def merge_sorted (lists : List (List Int)) : Option (List Int) :=
  match mergeLoop lists (build_heap Prod.snd default (mergeInitArray lists))
      (mergeInitIdx lists) [] with
  | some merged => some merged.reverse
  | none => none

/-- Ghost cursor state for the loop invariant: `cur j = some m` when the
heap still holds the entry `(j, lists[j][m])` for source `j`, `none` when
source `j` is finished (or was empty). -/
def cur0 (lists : List (List Int)) (j : Nat) : Option Nat :=
  if j < lists.length ∧ (lists.getD j []).length ≠ 0 then
    some ((lists.getD j []).length - 1)
  else none

/-- The heap entry contributed by source `j` under cursor state `cur`. -/
def entryOf (lists : List (List Int)) (cur : Nat → Option Nat) (j : Nat) :
    Multiset (Nat × Int) :=
  match cur j with
  | some m => {(j, el (lists.getD j []) m)}
  | none => 0

/-- The values of source `j` not yet emitted under cursor state `cur`. -/
def remOf (lists : List (List Int)) (cur : Nat → Option Nat) (j : Nat) :
    Multiset Int :=
  match cur j with
  | some m => ↑((lists.getD j []).take (m + 1))
  | none => 0

/-- Consistency of the stored `indices` entry with the ghost cursor. -/
def CurOk (lists : List (List Int)) (idxs : List (Option Nat))
    (cur : Nat → Option Nat) (j : Nat) : Prop :=
  ∀ m, cur j = some m →
    m < (lists.getD j []).length ∧ idxs[j]? = some (checkedSub m 1)

theorem el_of_getElem? {α : Type} [Inhabited α] {v : List α} {i : Nat}
    {a : α} (h : v[i]? = some a) : el v i = a := by
  simp [el, List.getD_eq_getElem?_getD, h]

theorem getD_eq_get {α : Type} {l : List α} {j : Nat} (d : α)
    (h : j < l.length) : l.getD j d = l[j] := by
  rw [List.getD_eq_getElem?_getD, List.getElem?_eq_getElem h]
  rfl

theorem getD_append {α : Type} {ls : List α} (l : α) (d : α) {j : Nat}
    (hj : j < ls.length) : (ls ++ [l]).getD j d = ls.getD j d := by
  rw [List.getD_eq_getElem?_getD, List.getD_eq_getElem?_getD,
    List.getElem?_append, if_pos hj]

theorem cur0_append {ls : List (List Int)} (l : List Int) {j : Nat}
    (hj : j < ls.length) : cur0 (ls ++ [l]) j = cur0 ls j := by
  unfold cur0
  rw [getD_append l [] hj]
  by_cases hc : j < ls.length ∧ (ls.getD j []).length ≠ 0
  · rw [if_pos ⟨show j < (ls ++ [l]).length from by simp; omega, hc.2⟩,
      if_pos hc]
  · rw [if_neg ?_, if_neg hc]
    intro hcon
    exact hc ⟨hj, hcon.2⟩

theorem entryOf_append {ls : List (List Int)} (l : List Int) {j : Nat}
    (hj : j < ls.length) :
    entryOf (ls ++ [l]) (cur0 (ls ++ [l])) j = entryOf ls (cur0 ls) j := by
  unfold entryOf
  rw [cur0_append l hj, getD_append l [] hj]

/-- The multiset of the initial heap array decomposes as one entry per
(non-empty) source under the initial cursor. -/
theorem initArray_coe (lists : List (List Int)) :
    (↑(mergeInitArray lists) : Multiset (Nat × Int))
    = ∑ j in Finset.range lists.length, entryOf lists (cur0 lists) j := by
  induction lists using List.reverseRecOn with
  | nil => rfl
  | append_singleton ls l ih =>
    unfold mergeInitArray at ih ⊢
    rw [List.enum_append, List.filterMap_append,
      show (ls ++ [l]).length = ls.length + 1 from by simp,
      Finset.sum_range_succ,
      Finset.sum_congr rfl
        (fun j hj => entryOf_append l (Finset.mem_range.mp hj)),
      ← Multiset.coe_add, ih]
    congr 1
    have hget : (ls ++ [l])[ls.length]? = some l := List.getElem?_concat_length ls l
    have hgetD : (ls ++ [l]).getD ls.length [] = l := by
      rw [List.getD_eq_getElem?_getD, hget]
      rfl
    unfold entryOf cur0
    rw [hgetD]
    by_cases hne : l.length = 0
    · rw [if_neg (by rintro ⟨-, h2⟩; exact h2 hne)]
      show _ = (0 : Multiset (Nat × Int))
      rw [List.length_eq_zero] at hne
      subst hne
      rfl
    · rw [if_pos ⟨by simp, hne⟩]
      show _ = ({(ls.length, el l (l.length - 1))} : Multiset (Nat × Int))
      rw [show List.enumFrom ls.length [l] = [(ls.length, l)] from rfl]
      simp only [List.filterMap_cons, List.filterMap_nil, if_neg hne]
      rfl

theorem initIdx_curOk (lists : List (List Int)) :
    ∀ j, j < lists.length → CurOk lists (mergeInitIdx lists) (cur0 lists) j := by
  intro j hj m hm
  unfold cur0 at hm
  split at hm
  · rename_i hcond
    injection hm with hm2
    have hgd : lists.getD j [] = lists[j] := getD_eq_get [] hj
    constructor
    · omega
    · unfold mergeInitIdx
      rw [List.getElem?_map, List.getElem?_eq_getElem hj]
      show some (if lists[j].length = 0 then some 0
        else checkedSub (lists[j].length - 1) 1) = _
      rw [if_neg (by rw [← hgd]; exact hcond.2), ← hgd, hm2]
  · exact Option.noConfusion hm

theorem initRem (lists : List (List Int)) :
    ∑ j in Finset.range lists.length, remOf lists (cur0 lists) j
    = ∑ j in Finset.range lists.length, (↑(lists.getD j []) : Multiset Int) := by
  refine Finset.sum_congr rfl ?_
  intro j hj
  rw [Finset.mem_range] at hj
  unfold remOf cur0
  by_cases hne : (lists.getD j []).length = 0
  · rw [if_neg (by tauto)]
    rw [List.length_eq_zero] at hne
    rw [hne]
    rfl
  · rw [if_pos ⟨hj, hne⟩]
    show (↑((lists.getD j []).take ((lists.getD j []).length - 1 + 1)) : Multiset Int) = _
    rw [show (lists.getD j []).length - 1 + 1 = (lists.getD j []).length from by
      omega, List.take_length]

theorem sum_getD_coe (lists : List (List Int)) :
    ∑ j in Finset.range lists.length, (↑(lists.getD j []) : Multiset Int)
    = ↑lists.flatten := by
  induction lists using List.reverseRecOn with
  | nil => rfl
  | append_singleton ls l ih =>
    rw [show (ls ++ [l]).length = ls.length + 1 from by simp,
      Finset.sum_range_succ,
      Finset.sum_congr rfl
        (fun j hj => by rw [getD_append l [] (Finset.mem_range.mp hj)]),
      ih,
      show (ls ++ [l]).getD ls.length [] = l from by
        rw [List.getD_eq_getElem?_getD, List.getElem?_concat_length]; rfl,
      List.flatten_append,
      show [l].flatten = l from by simp, ← Multiset.coe_add]

theorem tail_coe_shift {α : Type} [Inhabited α] {v w : List α}
    (hv : 1 ≤ v.length) (hw : 1 ≤ w.length) (h0 : el w 0 = el v 0)
    {a b : α} (hc : (↑w : Multiset α) + {a} = ↑v + {b}) :
    (↑w.tail : Multiset α) + {a} = ↑v.tail + {b} := by
  rw [coe_cons_decomp hw, h0, coe_cons_decomp hv, Multiset.cons_add,
    Multiset.cons_add] at hc
  exact (Multiset.cons_inj_right _).mp hc

theorem tail_coe_shift2 {α : Type} [Inhabited α] {v w : List α}
    (hv : 1 ≤ v.length) (hw : 1 ≤ w.length) (h0 : el w 0 = el v 0)
    {a : α} (hc : (↑w : Multiset α) + {a} = ↑v) :
    (↑w.tail : Multiset α) + {a} = ↑v.tail := by
  rw [coe_cons_decomp hw, h0, coe_cons_decomp hv, Multiset.cons_add] at hc
  exact (Multiset.cons_inj_right _).mp hc

theorem entryOf_cases {lists : List (List Int)} {cur : Nat → Option Nat}
    {j : Nat} {x : Nat × Int} (h : x ∈ entryOf lists cur j) :
    ∃ m, cur j = some m ∧ x = (j, el (lists.getD j []) m) := by
  unfold entryOf at h
  rcases hc : cur j with _ | m
  · rw [hc] at h
    exact absurd h (Multiset.not_mem_zero x)
  · rw [hc] at h
    exact ⟨m, rfl, Multiset.mem_singleton.mp h⟩

theorem entryOf_some {lists : List (List Int)} {cur : Nat → Option Nat}
    {j m : Nat} (h : cur j = some m) :
    entryOf lists cur j = {(j, el (lists.getD j []) m)} := by
  unfold entryOf
  rw [h]

theorem entryOf_none {lists : List (List Int)} {cur : Nat → Option Nat}
    {j : Nat} (h : cur j = none) : entryOf lists cur j = 0 := by
  unfold entryOf
  rw [h]

theorem entryOf_congr {lists : List (List Int)} {cur cur2 : Nat → Option Nat}
    {j : Nat} (h : cur j = cur2 j) :
    entryOf lists cur j = entryOf lists cur2 j := by
  unfold entryOf
  rw [h]

theorem remOf_some {lists : List (List Int)} {cur : Nat → Option Nat}
    {j m : Nat} (h : cur j = some m) :
    remOf lists cur j = ↑((lists.getD j []).take (m + 1)) := by
  unfold remOf
  rw [h]

theorem remOf_none {lists : List (List Int)} {cur : Nat → Option Nat}
    {j : Nat} (h : cur j = none) : remOf lists cur j = 0 := by
  unfold remOf
  rw [h]

theorem remOf_congr {lists : List (List Int)} {cur cur2 : Nat → Option Nat}
    {j : Nat} (h : cur j = cur2 j) :
    remOf lists cur j = remOf lists cur2 j := by
  unfold remOf
  rw [h]

theorem remSum_zero {lists : List (List Int)} {cur : Nat → Option Nat}
    (h : ∀ j ∈ Finset.range lists.length, entryOf lists cur j = 0) :
    ∑ j in Finset.range lists.length, remOf lists cur j = 0 := by
  refine Finset.sum_eq_zero ?_
  intro j hj
  rcases hc : cur j with _ | m
  · exact remOf_none hc
  · have h2 := h j hj
    rw [entryOf_some hc] at h2
    exact absurd h2 (by simp)

theorem chain_le_adj {l : List Int}
    (hl : List.Chain' (fun a b : Int => a ≤ b) l) {m : Nat} (h1 : 1 ≤ m)
    (h2 : m < l.length) : el l (m - 1) ≤ el l m := by
  rw [List.chain'_iff_get] at hl
  have h3 := hl (m - 1) (by omega)
  simp only [List.get_eq_getElem] at h3
  rw [BinHeap.el_eq_getElem (show m - 1 < l.length from by omega),
    BinHeap.el_eq_getElem h2]
  convert h3 using 2
  omega

theorem take_succ_coe {l : List Int} {m : Nat} (h : m < l.length) :
    (↑(l.take (m + 1)) : Multiset Int) = ↑(l.take m) + {el l m} := by
  rw [List.take_succ, List.getElem?_eq_getElem h, BinHeap.el_eq_getElem h]
  show (↑(List.take m l ++ [l[m]]) : Multiset Int) = ↑(List.take m l) + {l[m]}
  rw [← Multiset.coe_singleton, Multiset.coe_add]

theorem add_swap3 {β : Type} [AddCommMonoid β] (a b s : β) :
    (a + s) + b = (b + s) + a := by
  rw [add_right_comm, add_comm a b, add_right_comm]

theorem add_swap4 {β : Type} [AddCommMonoid β] (a b s : β) :
    (a + b) + s = b + (a + s) := by
  rw [add_right_comm]
  exact add_comm _ _

/-- The merge loop invariant: if the heap decomposes into one pending entry
per live source, consistently with `indices` and the ghost cursor, the loop
never panics and emits, in descending order, exactly the pending values. -/
theorem mergeLoop_spec (lists : List (List Int))
    (hsorted : ∀ l ∈ lists, List.Chain' (fun a b : Int => a ≤ b) l) :
    ∀ (μ : Nat) (v : List (Nat × Int)) (idxs : List (Option Nat))
      (acc : List Int) (cur : Nat → Option Nat),
    (v.length - 1) + idxWeight idxs ≤ μ →
    IsHeap Prod.snd v →
    1 ≤ v.length →
    (↑v.tail : Multiset (Nat × Int))
      = ∑ j in Finset.range lists.length, entryOf lists cur j →
    (∀ j, j < lists.length → CurOk lists idxs cur j) →
    List.Chain' (fun a b : Int => b ≤ a) acc →
    (∀ x, acc.getLast? = some x → ∀ y ∈ v.tail, y.2 ≤ x) →
    ∃ out, mergeLoop lists v idxs acc = some out ∧
      List.Chain' (fun a b : Int => b ≤ a) out ∧
      (↑out : Multiset Int)
        = ↑acc + ∑ j in Finset.range lists.length, remOf lists cur j := by
  intro μ
  induction μ with
  | zero =>
    intro v idxs acc cur hμ hheap hlen hTail hOk hchain hlast
    rw [mergeLoop, dif_neg (by omega)]
    refine ⟨acc, rfl, hchain, ?_⟩
    have htail0 : v.tail = [] := by
      rw [← List.length_eq_zero, List.length_tail]
      omega
    rw [htail0] at hTail
    rw [remSum_zero (Finset.sum_eq_zero_iff.mp hTail.symm), add_zero]
  | succ μ ih =>
    intro v idxs acc cur hμ hheap hlen hTail hOk hchain hlast
    by_cases hg : 1 ≤ v.length - 1
    · have hlen2 : 2 ≤ v.length := by omega
      rw [mergeLoop, dif_pos hg]
      split
      · rename_i heq
        rw [List.getElem?_eq_getElem (show 1 < v.length from by omega)] at heq
        exact Option.noConfusion heq
      · rename_i jv heq
        have hel : el v 1 = jv := el_of_getElem? heq
        have hmem : jv ∈ v.tail :=
          mem_tail_iff.mpr ⟨1, le_refl 1, by omega, hel.symm⟩
        have hboundv : ∀ y ∈ v.tail, y.2 ≤ jv.2 := by
          intro y hy
          obtain ⟨i, hi1, hil, hye⟩ := mem_tail_iff.mp hy
          rw [hye, ← hel]
          exact BinHeap.IsHeap.le_root Prod.snd hheap i hil hi1
        have hmemM : jv ∈ ∑ j in Finset.range lists.length, entryOf lists cur j := by
          rw [← hTail]
          exact Multiset.mem_coe.mpr hmem
        obtain ⟨j0, hj0r, hjent⟩ := (Finset.mem_sum _ _).mp hmemM
        obtain ⟨m, hcm, hjv⟩ := entryOf_cases hjent
        have hj0 : j0 < lists.length := Finset.mem_range.mp hj0r
        obtain ⟨hmlt, hidx⟩ := hOk j0 hj0 m hcm
        have hjv1 : jv.1 = j0 := by rw [hjv]
        have hjv2 : jv.2 = el (lists.getD j0 []) m := by rw [hjv]
        have hsortj : List.Chain' (fun a b : Int => a ≤ b) (lists.getD j0 []) := by
          refine hsorted _ ?_
          rw [getD_eq_get [] hj0]
          exact List.getElem_mem hj0
        have hacc : (↑(acc ++ [jv.2]) : Multiset Int) = ↑acc + {jv.2} := by
          rw [← Multiset.coe_singleton, Multiset.coe_add]
        have hdecomp : (↑v.tail : Multiset (Nat × Int))
            = {jv} + ∑ k in (Finset.range lists.length).erase j0,
              entryOf lists cur k := by
          rw [hTail, ← Finset.add_sum_erase _ _ hj0r, entryOf_some hcm, ← hjv]
        split
        · rename_i heq2
          rw [hjv1, hidx] at heq2
          exact Option.noConfusion heq2
        · -- the source still has a pending element: replace the root
          rename_i c heq2
          have h2 := heq2
          rw [hjv1, hidx] at h2
          injection h2 with h3
          have hm1c : 1 ≤ m ∧ c = m - 1 := by
            unfold checkedSub at h3
            by_cases hm1 : 1 ≤ m
            · rw [if_pos hm1] at h3
              injection h3 with h4
              exact ⟨hm1, h4.symm⟩
            · rw [if_neg hm1] at h3
              exact Option.noConfusion h3
          obtain ⟨hm1, hceq⟩ := hm1c
          split
          · rename_i heq3
            rw [hjv1, List.getElem?_eq_getElem hj0] at heq3
            exact Option.noConfusion heq3
          · rename_i lj heq3
            have hljeq : lists.getD j0 [] = lj := by
              have h4 := heq3
              rw [hjv1, List.getElem?_eq_getElem hj0] at h4
              injection h4 with h5
              rw [getD_eq_get [] hj0, h5]
            rw [dif_pos (show c < lj.length from by rw [← hljeq]; omega)]
            split
            · rename_i e heq4
              obtain ⟨w, hw, -, -, -, -⟩ :=
                BinHeap.replace_spec Prod.snd (jv.1, el lj c) (le_refl 1) hg
              rw [hw] at heq4
              exact Except.noConfusion heq4
            · rename_i w heq4
              obtain ⟨w0, hw0, hlenw, hel0w, hcoew, hheapw⟩ :=
                BinHeap.replace_spec Prod.snd (jv.1, el lj c) (le_refl 1) hg
              rw [heq4] at hw0
              injection hw0 with hw0b
              subst hw0b
              have hidxlen : j0 < idxs.length := by
                by_contra hcc
                rw [List.getElem?_eq_none (by omega)] at hidx
                exact Option.noConfusion hidx
              have hwset := idxWeight_set idxs jv.1 c heq2
              have hnewpair : (jv.1, el lj c) = (j0, el (lists.getD j0 []) (m - 1)) := by
                rw [hjv1, hljeq, hceq]
              have htail2 : (↑w.tail : Multiset (Nat × Int)) + {jv}
                  = ↑v.tail + {(jv.1, el lj c)} := by
                have h5 := tail_coe_shift (by omega) (by omega) hel0w hcoew
                rw [hel] at h5
                exact h5
              have htail3 : (↑w.tail : Multiset (Nat × Int))
                  = ∑ k in Finset.range lists.length,
                    entryOf lists (Function.update cur j0 (some (m - 1))) k := by
                have h6 : (↑w.tail : Multiset (Nat × Int)) + {jv}
                    = (({(j0, el (lists.getD j0 []) (m - 1))}
                        + ∑ k in (Finset.range lists.length).erase j0,
                          entryOf lists cur k) + {jv}) := by
                  rw [htail2, hdecomp, hnewpair]
                  exact add_swap3 _ _ _
                have h7 := add_right_cancel h6
                rw [h7, ← Finset.add_sum_erase _ _ hj0r,
                  entryOf_some (Function.update_same j0 (some (m - 1)) cur)]
                congr 1
                refine Finset.sum_congr rfl ?_
                intro k hk
                exact entryOf_congr
                  (Function.update_noteq (Finset.ne_of_mem_erase hk) _ _).symm
              have hOk2 : ∀ j, j < lists.length →
                  CurOk lists (idxs.set jv.1 (checkedSub c 1))
                    (Function.update cur j0 (some (m - 1))) j := by
                intro j hjn m2 hm2
                by_cases hjj : j = j0
                · subst hjj
                  rw [Function.update_same] at hm2
                  injection hm2 with hm2b
                  refine ⟨by omega, ?_⟩
                  rw [hjv1, List.getElem?_set_self hidxlen, hceq, hm2b]
                · rw [Function.update_noteq hjj] at hm2
                  obtain ⟨hb1, hb2⟩ := hOk j hjn m2 hm2
                  refine ⟨hb1, ?_⟩
                  rw [hjv1, List.getElem?_set_ne (fun hcc => hjj hcc.symm)]
                  exact hb2
              have hchain2 : List.Chain' (fun a b : Int => b ≤ a) (acc ++ [jv.2]) := by
                rw [List.chain'_append]
                refine ⟨hchain, List.chain'_singleton _, ?_⟩
                intro x hx y hy
                simp only [List.head?_cons, Option.mem_def, Option.some_inj] at hy
                subst hy
                exact hlast x hx jv hmem
              have hlast2 : ∀ x, (acc ++ [jv.2]).getLast? = some x →
                  ∀ y ∈ w.tail, y.2 ≤ x := by
                intro x hx y hy
                rw [List.getLast?_concat] at hx
                injection hx with hxb
                subst hxb
                have hyM : y ∈ (↑w.tail : Multiset (Nat × Int)) :=
                  Multiset.mem_coe.mpr hy
                rw [htail3] at hyM
                obtain ⟨k, hkr, hyk⟩ := (Finset.mem_sum _ _).mp hyM
                obtain ⟨m3, hm3, hym⟩ := entryOf_cases hyk
                by_cases hkj : k = j0
                · subst hkj
                  rw [Function.update_same] at hm3
                  injection hm3 with hm3b
                  rw [hym, ← hm3b, hjv2]
                  exact chain_le_adj hsortj (by omega) (by omega)
                · rw [Function.update_noteq hkj] at hm3
                  have hymem : y ∈ (↑v.tail : Multiset (Nat × Int)) := by
                    rw [hTail]
                    refine (Finset.mem_sum _ _).mpr ⟨k, hkr, ?_⟩
                    rw [entryOf_some hm3, hym]
                    simp
                  exact hboundv y (Multiset.mem_coe.mp hymem)
              have hmeas : (w.length - 1)
                  + idxWeight (idxs.set jv.1 (checkedSub c 1)) ≤ μ := by
                omega
              obtain ⟨out, ho1, ho2, ho3⟩ := ih w (idxs.set jv.1 (checkedSub c 1))
                (acc ++ [jv.2]) (Function.update cur j0 (some (m - 1)))
                hmeas (hheapw hheap) (by omega) htail3 hOk2 hchain2 hlast2
              refine ⟨out, ho1, ho2, ?_⟩
              rw [ho3, hacc]
              have hremid : ∑ j in Finset.range lists.length, remOf lists cur j
                  = {jv.2} + ∑ j in Finset.range lists.length,
                    remOf lists (Function.update cur j0 (some (m - 1))) j := by
                rw [← Finset.add_sum_erase _ (remOf lists cur) hj0r,
                  ← Finset.add_sum_erase _
                    (remOf lists (Function.update cur j0 (some (m - 1)))) hj0r,
                  Finset.sum_congr rfl (fun k hk => remOf_congr
                    (Function.update_noteq (Finset.ne_of_mem_erase hk)
                      (some (m - 1)) cur).symm),
                  remOf_some hcm,
                  remOf_some (Function.update_same j0 (some (m - 1)) cur),
                  show m - 1 + 1 = m from by omega, take_succ_coe hmlt, hjv2]
                exact add_swap4 _ _ _
              rw [hremid]
              exact add_assoc _ _ _
        · -- the source is exhausted: extract the root
          rename_i heq2
          have h2 := heq2
          rw [hjv1, hidx] at h2
          injection h2 with h3
          have hm0 : m = 0 := by
            unfold checkedSub at h3
            by_cases hm1 : 1 ≤ m
            · rw [if_pos hm1] at h3
              exact Option.noConfusion h3
            · omega
          subst hm0
          obtain ⟨hval, hlenw, hel0w, hcoew⟩ := BinHeap.extract_max_spec Prod.snd hg
          have hheapw := BinHeap.extract_max_IsHeap Prod.snd hheap
          have htail2 : (↑(extract_max Prod.snd v).2.tail : Multiset (Nat × Int))
              + {jv} = ↑v.tail := by
            have h5 := tail_coe_shift2 (by omega) (by omega) hel0w hcoew
            rw [hel] at h5
            exact h5
          have htail3 : (↑(extract_max Prod.snd v).2.tail : Multiset (Nat × Int))
              = ∑ k in Finset.range lists.length,
                entryOf lists (Function.update cur j0 none) k := by
            have h6 : (↑(extract_max Prod.snd v).2.tail : Multiset (Nat × Int))
                + {jv}
                = (∑ k in (Finset.range lists.length).erase j0,
                    entryOf lists cur k) + {jv} := by
              rw [htail2, hdecomp, add_comm]
            have h7 := add_right_cancel h6
            rw [h7, ← Finset.add_sum_erase _ _ hj0r,
              entryOf_none (Function.update_same j0 none cur), zero_add]
            refine Finset.sum_congr rfl ?_
            intro k hk
            exact entryOf_congr
              (Function.update_noteq (Finset.ne_of_mem_erase hk) _ _).symm
          have hOk2 : ∀ j, j < lists.length →
              CurOk lists idxs (Function.update cur j0 none) j := by
            intro j hjn m2 hm2
            by_cases hjj : j = j0
            · subst hjj
              rw [Function.update_same] at hm2
              exact Option.noConfusion hm2
            · rw [Function.update_noteq hjj] at hm2
              exact hOk j hjn m2 hm2
          have hchain2 : List.Chain' (fun a b : Int => b ≤ a) (acc ++ [jv.2]) := by
            rw [List.chain'_append]
            refine ⟨hchain, List.chain'_singleton _, ?_⟩
            intro x hx y hy
            simp only [List.head?_cons, Option.mem_def, Option.some_inj] at hy
            subst hy
            exact hlast x hx jv hmem
          have hlast2 : ∀ x, (acc ++ [jv.2]).getLast? = some x →
              ∀ y ∈ (extract_max Prod.snd v).2.tail, y.2 ≤ x := by
            intro x hx y hy
            rw [List.getLast?_concat] at hx
            injection hx with hxb
            subst hxb
            have hyM : y ∈ (↑(extract_max Prod.snd v).2.tail : Multiset (Nat × Int)) :=
              Multiset.mem_coe.mpr hy
            rw [htail3] at hyM
            obtain ⟨k, hkr, hyk⟩ := (Finset.mem_sum _ _).mp hyM
            obtain ⟨m3, hm3, hym⟩ := entryOf_cases hyk
            by_cases hkj : k = j0
            · subst hkj
              rw [Function.update_same] at hm3
              exact Option.noConfusion hm3
            · rw [Function.update_noteq hkj] at hm3
              have hymem : y ∈ (↑v.tail : Multiset (Nat × Int)) := by
                rw [hTail]
                refine (Finset.mem_sum _ _).mpr ⟨k, hkr, ?_⟩
                rw [entryOf_some hm3, hym]
                simp
              exact hboundv y (Multiset.mem_coe.mp hymem)
          have hmeas : ((extract_max Prod.snd v).2.length - 1) + idxWeight idxs ≤ μ := by
            omega
          obtain ⟨out, ho1, ho2, ho3⟩ := ih (extract_max Prod.snd v).2 idxs
            (acc ++ [jv.2]) (Function.update cur j0 none)
            hmeas hheapw (by omega) htail3 hOk2 hchain2 hlast2
          refine ⟨out, ho1, ho2, ?_⟩
          have hacc : (↑(acc ++ [jv.2]) : Multiset Int) = ↑acc + {jv.2} := by
            rw [← Multiset.coe_singleton, Multiset.coe_add]
          rw [ho3, hacc]
          have hremid : ∑ j in Finset.range lists.length, remOf lists cur j
              = {jv.2} + ∑ j in Finset.range lists.length,
                remOf lists (Function.update cur j0 none) j := by
            rw [← Finset.add_sum_erase _ (remOf lists cur) hj0r,
              ← Finset.add_sum_erase _
                (remOf lists (Function.update cur j0 none)) hj0r,
              Finset.sum_congr rfl (fun k hk => remOf_congr
                (Function.update_noteq (Finset.ne_of_mem_erase hk) none cur).symm),
              remOf_some hcm,
              remOf_none (Function.update_same j0 none cur), zero_add,
              take_succ_coe hmlt, hjv2, List.take_zero,
              show (↑([] : List Int) : Multiset Int) = 0 from rfl, zero_add]
            rw [zero_add]
          rw [hremid]
          exact add_assoc _ _ _
    · rw [mergeLoop, dif_neg hg]
      refine ⟨acc, rfl, hchain, ?_⟩
      have htail0 : v.tail = [] := by
        rw [← List.length_eq_zero, List.length_tail]
        omega
      rw [htail0] at hTail
      rw [remSum_zero (Finset.sum_eq_zero_iff.mp hTail.symm), add_zero]

/-- `merge_sorted` on ascending inputs: no panic, ascending output, with the
multiset (and hence the length) of the concatenation of the inputs. -/
theorem merge_sorted_spec (lists : List (List Int))
    (hsorted : ∀ l ∈ lists, List.Chain' (fun a b : Int => a ≤ b) l) :
    ∃ out, merge_sorted lists = some out ∧
      List.Chain' (fun a b : Int => a ≤ b) out ∧
      (↑out : Multiset Int) = ↑lists.flatten ∧
      out.length = (lists.map List.length).sum := by
  have hb := BinHeap.build_heap_IsHeap Prod.snd (default : Nat × Int)
    (mergeInitArray lists)
  have hblen := BinHeap.length_build Prod.snd (default : Nat × Int)
    (mergeInitArray lists)
  have hbtail := BinHeap.build_tail_coe Prod.snd (default : Nat × Int)
    (mergeInitArray lists)
  obtain ⟨mv, h1, h2, h3⟩ := mergeLoop_spec lists hsorted
    (((build_heap Prod.snd default (mergeInitArray lists)).length - 1)
      + idxWeight (mergeInitIdx lists))
    (build_heap Prod.snd default (mergeInitArray lists))
    (mergeInitIdx lists) [] (cur0 lists)
    (le_refl _) hb (by rw [hblen]; omega)
    (by rw [hbtail]; exact initArray_coe lists)
    (initIdx_curOk lists)
    List.chain'_nil
    (by intro x hx; exact absurd hx (by simp))
  unfold merge_sorted
  rw [h1]
  have hms : (↑mv.reverse : Multiset Int) = ↑lists.flatten := by
    rw [Multiset.coe_reverse, h3]
    show (0 : Multiset Int) + _ = _
    rw [zero_add, initRem, sum_getD_coe]
  refine ⟨mv.reverse, rfl, ?_, hms, ?_⟩
  · rw [List.chain'_reverse]
    exact h2
  · have hcard := congrArg Multiset.card hms
    rw [Multiset.coe_card, Multiset.coe_card] at hcard
    rw [List.length_reverse] at hcard
    rw [List.length_reverse, hcard, List.length_flatten]

end Merge
/-! ## The claims -/

instance {E A : Type} [DecidableEq E] [DecidableEq A] : DecidableEq (Except E A)
  | .error e1, .error e2 =>
    if h : e1 = e2 then .isTrue (by rw [h])
    else .isFalse (fun hc => h (by injection hc))
  | .error _, .ok _ => .isFalse (fun hc => Except.noConfusion hc)
  | .ok _, .error _ => .isFalse (fun hc => Except.noConfusion hc)
  | .ok a1, .ok a2 =>
    if h : a1 = a2 then .isTrue (by rw [h])
    else .isFalse (fun hc => h (by injection hc))

/-- C1: for every finite sequence `xs` of elements compared through the key
`f`, `build(xs).heapsort()` yields an ascending permutation of `xs`: the
live region `array[1..]` of the result is sorted low to high, is a
permutation of `xs`, and has the same length. -/
theorem C1_build_heapsort_sorts {α : Type} [Inhabited α] (f : α → Int)
    (d0 : α) (xs : List α) :
    BinHeap.is_sorted f (BinHeap.heapsort f (BinHeap.build_heap f d0 xs)) ∧
    ((BinHeap.heapsort f (BinHeap.build_heap f d0 xs)).tail).Perm xs ∧
    ((BinHeap.heapsort f (BinHeap.build_heap f d0 xs)).tail).length
      = xs.length := by
  have h1 : 1 ≤ (BinHeap.build_heap f d0 xs).length := by
    rw [BinHeap.length_build]
    omega
  have hp := (BinHeap.heapsort_tail_perm f _ h1).trans
    (BinHeap.build_tail_perm f d0 xs)
  exact ⟨BinHeap.heapsort_sorted f _ (BinHeap.build_heap_IsHeap f d0 xs) h1,
    hp, hp.length_eq⟩

unseal BinHeap.heapfy in
/-- C2 counterexample: `[0, 16, 5, 15, 1, 2, 14, 13]` (slot 0 is the dummy)
is a max-heap, `delete(4)` succeeds, but its result violates the invariant:
the last element `13` lands at slot 4 above its parent value `5`, and
`delete` only sifts down. -/
theorem C2_delete_breaks_invariant :
    BinHeap.IsHeap (fun x : Int => x) [0, 16, 5, 15, 1, 2, 14, 13] ∧
    BinHeap.delete (fun x : Int => x) 4 [0, 16, 5, 15, 1, 2, 14, 13]
      = .ok (1, [0, 16, 5, 15, 13, 2, 14]) ∧
    ¬ BinHeap.IsHeap (fun x : Int => x) [0, 16, 5, 15, 13, 2, 14] := by
  decide

/-- C2 amended: after `build`, and after every successful `insert`,
`extractMax` and `replace` on a heap that satisfied the max-heap invariant,
the invariant holds again.  (`delete` is excluded: it restores the invariant
only downward, see the counterexample.) -/
theorem C2_invariant_after_ops {α : Type} [Inhabited α] [DecidableEq α]
    (f : α → Int) (d0 : α) (xs : List α) (v : List α) (x : α) (i : Nat)
    (hv : BinHeap.IsHeap f v) (h1 : 1 ≤ v.length) :
    BinHeap.IsHeap f (BinHeap.build_heap f d0 xs) ∧
    BinHeap.IsHeap f (BinHeap.insert f x v) ∧
    BinHeap.IsHeap f (BinHeap.extract_max f v).2 ∧
    (∀ w, BinHeap.replace f i x v = .ok w → BinHeap.IsHeap f w) := by
  refine ⟨BinHeap.build_heap_IsHeap f d0 xs, BinHeap.insert_IsHeap f x v hv h1,
    BinHeap.extract_max_IsHeap f hv, ?_⟩
  intro w hw
  have hrange : ¬(i = 0 ∨ v.length - 1 < i) := by
    intro hc
    obtain ⟨e, he⟩ := (BinHeap.replace_error_iff f).mpr hc
    rw [hw] at he
    exact Except.noConfusion he
  obtain ⟨w0, hw0, -, -, -, hheap⟩ :=
    BinHeap.replace_spec f (v := v) (i := i) x (by omega) (by omega)
  rw [hw] at hw0
  injection hw0 with hb
  rw [hb]
  exact hheap hv

theorem C2_invariant_after_ops_witness :
    BinHeap.IsHeap (fun x : Int => x)
      (BinHeap.build_heap (fun x : Int => x) 0 [2, 7]) ∧
    BinHeap.IsHeap (fun x : Int => x)
      (BinHeap.insert (fun x : Int => x) 4 [0, 5, 3]) ∧
    BinHeap.IsHeap (fun x : Int => x)
      (BinHeap.extract_max (fun x : Int => x) [0, 5, 3]).2 ∧
    (∀ w, BinHeap.replace (fun x : Int => x) 1 4 [0, 5, 3] = .ok w →
      BinHeap.IsHeap (fun x : Int => x) w) :=
  C2_invariant_after_ops (fun x : Int => x) 0 [2, 7] [0, 5, 3] 4 1
    (by decide) (by decide)

/-- C3: for every finite collection of individually ascending input lists,
`merge_sorted` returns (with no panic and no error) a single ascending
sequence whose multiset equals the union with multiplicity of all inputs
and whose length is the sum of the input lengths; degenerate inputs are
covered by the universal quantifier. -/
theorem C3_merge_sorted_correct (lists : List (List Int))
    (hsorted : ∀ l ∈ lists, List.Chain' (fun a b : Int => a ≤ b) l) :
    ∃ out, Merge.merge_sorted lists = some out ∧
      List.Chain' (fun a b : Int => a ≤ b) out ∧
      (↑out : Multiset Int) = ↑lists.flatten ∧
      out.length = (lists.map List.length).sum :=
  Merge.merge_sorted_spec lists hsorted

theorem C3_merge_sorted_correct_witness :
    ∃ out, Merge.merge_sorted [[1, 3], [2]] = some out ∧
      List.Chain' (fun a b : Int => a ≤ b) out ∧
      (↑out : Multiset Int) = ↑([[1, 3], [2]] : List (List Int)).flatten ∧
      out.length = (([[1, 3], [2]] : List (List Int)).map List.length).sum :=
  C3_merge_sorted_correct [[1, 3], [2]] (by simp)

/-- C4: `delete`, `replace` and `replace_if_greater` error exactly when the
index misses the live range — for the binary heap the live slots are
`1..size` (the spec's logical 0-based range `[0, size)` shifted past the
leading dummy), for the d-ary `replace` literally `0 ≤ i < size`; a failing
call leaves the array unchanged, an in-range call never errors. -/
theorem C4_out_of_range_exact {α : Type} [Inhabited α] [DecidableEq α]
    (f : α → Int) (v : List α) (i : Nat) (x : α) (d : Nat) (z : Int)
    (u : List Int) :
    ((∃ e, BinHeap.delete f i v = .error e) ↔
      ¬(1 ≤ i ∧ i ≤ BinHeap.size v)) ∧
    ((∃ e, BinHeap.replace f i x v = .error e) ↔
      ¬(1 ≤ i ∧ i ≤ BinHeap.size v)) ∧
    ((∃ e, BinHeap.replace_if_greater f i x v = .error e) ↔
      ¬(1 ≤ i ∧ i ≤ BinHeap.size v)) ∧
    (¬(1 ≤ i ∧ i ≤ BinHeap.size v) →
      (BinHeap.deleteOp f i v).2 = v ∧ (BinHeap.replaceOp f i x v).2 = v ∧
      (BinHeap.replaceIfGreaterOp f i x v).2 = v) ∧
    (1 ≤ i ∧ i ≤ BinHeap.size v →
      (∃ r, BinHeap.delete f i v = .ok r) ∧
      (∃ w, BinHeap.replace f i x v = .ok w) ∧
      (∃ w, BinHeap.replace_if_greater f i x v = .ok w)) ∧
    ((∃ e, DAry.dreplace d i z u = .error e) ↔ ¬(i < u.length)) ∧
    (¬(i < u.length) → (DAry.dreplaceOp d i z u).1 = u) ∧
    (i < u.length → ∃ w, DAry.dreplace d i z u = .ok w) := by
  refine ⟨?_, ?_, ?_, ?_, ?_, ?_, ?_, ?_⟩
  · rw [BinHeap.delete_error_iff f]
    show _ ↔ ¬(1 ≤ i ∧ i ≤ v.length - 1)
    omega
  · rw [BinHeap.replace_error_iff f]
    show _ ↔ ¬(1 ≤ i ∧ i ≤ v.length - 1)
    omega
  · rw [BinHeap.replace_if_greater_error_iff f]
    show _ ↔ ¬(1 ≤ i ∧ i ≤ v.length - 1)
    omega
  · intro hout
    have hc : i = 0 ∨ v.length - 1 < i := by
      have : ¬(1 ≤ i ∧ i ≤ v.length - 1) := hout
      omega
    obtain ⟨e1, he1⟩ := (BinHeap.delete_error_iff f (v := v) (i := i)).mpr hc
    obtain ⟨e2, he2⟩ :=
      (BinHeap.replace_error_iff f (v := v) (i := i) (x := x)).mpr hc
    obtain ⟨e3, he3⟩ :=
      (BinHeap.replace_if_greater_error_iff f (v := v) (i := i)
        (x := x)).mpr hc
    refine ⟨?_, ?_, ?_⟩
    · unfold BinHeap.deleteOp
      rw [he1]
    · unfold BinHeap.replaceOp
      rw [he2]
    · unfold BinHeap.replaceIfGreaterOp
      rw [he3]
  · intro hin
    have hi : 1 ≤ i := hin.1
    have hs : i ≤ v.length - 1 := hin.2
    obtain ⟨w1, hw1, -, -, -⟩ := BinHeap.delete_ok f (v := v) (i := i) hi hs
    refine ⟨⟨_, hw1⟩, ?_, BinHeap.replace_if_greater_ok f (v := v) (i := i)
      x hi hs⟩
    cases hrr : BinHeap.replace f i x v with
    | error e =>
      have := (BinHeap.replace_error_iff f).mp ⟨e, hrr⟩
      omega
    | ok w => exact ⟨w, rfl⟩
  · rw [DAry.dreplace_error_iff]
    omega
  · intro hout
    rw [DAry.dreplaceOp_error_unchanged d z (by omega)]
  · intro hin
    cases hrr : DAry.dreplace d i z u with
    | error e =>
      have := (DAry.dreplace_error_iff d i z u).mp ⟨e, hrr⟩
      omega
    | ok w => exact ⟨w, rfl⟩

/-- C5: the live multiset after `build(xs)` is exactly the multiset of
`xs`, `insert` adds exactly the inserted element, a successful `delete`
removes exactly the deleted element, a successful `replace` swaps exactly
the replaced element for the new one, and d-ary `insert` adds exactly the
new key — nothing is duplicated, lost, or replaced by the dummy. -/
theorem C5_multiset_preservation {α : Type} [Inhabited α] [DecidableEq α]
    (f : α → Int) (d0 : α) (xs : List α) (v : List α) (x : α) (i : Nat)
    (d : Nat) (z : Int) (u : List Int)
    (h1 : 1 ≤ v.length) (hi : 1 ≤ i) (hs : i ≤ v.length - 1) :
    (↑(BinHeap.build_heap f d0 xs).tail : Multiset α) = ↑xs ∧
    (↑(BinHeap.insert f x v).tail : Multiset α) = ↑v.tail + {x} ∧
    (∀ a w, BinHeap.delete f i v = .ok (a, w) →
      (↑w.tail : Multiset α) + {a} = ↑v.tail) ∧
    (∀ w, BinHeap.replace f i x v = .ok w →
      (↑w.tail : Multiset α) + {BinHeap.el v i} = ↑v.tail + {x}) ∧
    (↑(DAry.dinsert d z u) : Multiset Int) = ↑u + {z} := by
  refine ⟨BinHeap.build_tail_coe f d0 xs, ?_, ?_, ?_, DAry.dinsert_coe d z u⟩
  · have hlen2 : 1 ≤ (BinHeap.insert f x v).length := by
      rw [BinHeap.length_insert]
      omega
    have hc := BinHeap.insert_coe f x v
    rw [BinHeap.coe_cons_decomp hlen2, BinHeap.el_insert_zero f x v h1,
      BinHeap.coe_cons_decomp h1, Multiset.cons_add] at hc
    exact (Multiset.cons_inj_right _).mp hc
  · intro a w hw
    obtain ⟨w0, hw0, hlen0, hel0, hcoe0⟩ :=
      BinHeap.delete_ok f (v := v) (i := i) hi hs
    rw [hw] at hw0
    injection hw0 with hb
    injection hb with hb1 hb2
    subst hb1
    subst hb2
    exact Merge.tail_coe_shift2 (by omega) (by omega) hel0 hcoe0
  · intro w hw
    obtain ⟨w0, hw0, hlen0, hel0, hcoe0, -⟩ :=
      BinHeap.replace_spec f (v := v) (i := i) x hi hs
    rw [hw] at hw0
    injection hw0 with hb
    subst hb
    exact Merge.tail_coe_shift (by omega) (by omega) hel0 hcoe0

theorem C5_multiset_preservation_witness :
    (↑(BinHeap.build_heap (fun x : Int => x) 0 [2, 7]).tail : Multiset Int)
      = ↑([2, 7] : List Int) ∧
    (↑(BinHeap.insert (fun x : Int => x) 4 [0, 5, 3]).tail : Multiset Int)
      = ↑([0, 5, 3] : List Int).tail + {4} ∧
    (∀ a w, BinHeap.delete (fun x : Int => x) 1 [0, 5, 3] = .ok (a, w) →
      (↑w.tail : Multiset Int) + {a} = ↑([0, 5, 3] : List Int).tail) ∧
    (∀ w, BinHeap.replace (fun x : Int => x) 1 4 [0, 5, 3] = .ok w →
      (↑w.tail : Multiset Int) + {BinHeap.el [0, 5, 3] 1}
        = ↑([0, 5, 3] : List Int).tail + {4}) ∧
    (↑(DAry.dinsert 2 9 [7, 2]) : Multiset Int) = ↑([7, 2] : List Int) + {9} :=
  C5_multiset_preservation (fun x : Int => x) 0 [2, 7] [0, 5, 3] 4 1 2 9 [7, 2]
    (by decide) (by decide) (by decide)

/-- C6: `extract_max` returns `none` exactly on an empty heap; on a
non-empty heap it returns the stored maximum and shrinks the size by one
(shown for both the binary and the d-ary heap); its `Option` return type
carries no error case. -/
theorem C6_extract_max_contract {α : Type} [Inhabited α] (f : α → Int)
    (v : List α) (d : Nat) (u : List Int)
    (hv : BinHeap.IsHeap f v) (hne : 1 ≤ BinHeap.size v)
    (hd : 1 ≤ d) (hu : DAry.IsDHeap d u) (hune : u.length ≠ 0) :
    (∀ w : List α, (BinHeap.extract_max f w).1 = none ↔ BinHeap.size w = 0) ∧
    (BinHeap.extract_max f v).1 = some (BinHeap.el v 1) ∧
    (∀ y ∈ v.tail, f y ≤ f (BinHeap.el v 1)) ∧
    BinHeap.size (BinHeap.extract_max f v).2 = BinHeap.size v - 1 ∧
    ((DAry.dextract_max d u).1 = none ↔ u.length = 0) ∧
    (∃ w, DAry.dextract_max d u = (some (BinHeap.el u 0), w) ∧
      w.length = u.length - 1 ∧ (∀ y ∈ u, y ≤ BinHeap.el u 0)) := by
  have hne2 : 1 ≤ v.length - 1 := hne
  have hspec := BinHeap.extract_max_spec f (v := v) hne2
  obtain ⟨w, he1, he2, -, -, he5⟩ := DAry.dextract_max_spec d hd hu hune
  refine ⟨?_, hspec.1, ?_, ?_, DAry.dextract_max_none_iff d u, w, he1, he2, he5⟩
  · intro w
    by_cases hz : w.length - 1 = 0
    · rw [BinHeap.extract_max_empty f hz]
      simpa [BinHeap.size] using hz
    · unfold BinHeap.extract_max
      rw [if_neg hz]
      simpa [BinHeap.size] using hz
  · intro y hy
    obtain ⟨j, hj1, hjl, hye⟩ := BinHeap.mem_tail_iff.mp hy
    rw [hye]
    exact BinHeap.IsHeap.le_root f hv j hjl hj1
  · show (BinHeap.extract_max f v).2.length - 1 = v.length - 1 - 1
    rw [hspec.2.1]

theorem C6_extract_max_contract_witness :
    (∀ w : List Int,
      (BinHeap.extract_max (fun x : Int => x) w).1 = none ↔
        BinHeap.size w = 0) ∧
    (BinHeap.extract_max (fun x : Int => x) [0, 5, 3]).1
      = some (BinHeap.el [0, 5, 3] 1) ∧
    (∀ y ∈ ([0, 5, 3] : List Int).tail,
      (fun x : Int => x) y ≤ (fun x : Int => x) (BinHeap.el [0, 5, 3] 1)) ∧
    BinHeap.size (BinHeap.extract_max (fun x : Int => x) [0, 5, 3]).2
      = BinHeap.size [0, 5, 3] - 1 ∧
    ((DAry.dextract_max 1 [7, 2]).1 = none ↔
      ([7, 2] : List Int).length = 0) ∧
    (∃ w, DAry.dextract_max 1 [7, 2] = (some (BinHeap.el [7, 2] 0), w) ∧
      w.length = ([7, 2] : List Int).length - 1 ∧
      (∀ y ∈ ([7, 2] : List Int), y ≤ BinHeap.el [7, 2] 0)) :=
  C6_extract_max_contract (fun x : Int => x) [0, 5, 3] 1 [7, 2]
    (by decide) (by decide) (by decide) (by decide) (by decide)

/-- C7: d-ary `replace` at an in-range index always succeeds, overwrites the
element, and restores the heap — sifting down when the new value is
smaller, up when larger (writing at the root directly when `i = 0`), and
doing nothing when equal; length, multiset and the invariant are as
expected. -/
theorem C7_dreplace_contract (d : Nat) (i : Nat) (x : Int) (v : List Int)
    (hd : 1 ≤ d) (hv : DAry.IsDHeap d v) (hi : i < v.length) :
    ∃ w, DAry.dreplace d i x v = .ok w ∧
      (x = BinHeap.el v i → w = v) ∧
      (x < BinHeap.el v i → w = DAry.dheapfy d (v.set i x) i) ∧
      (BinHeap.el v i < x → i = 0 → w = v.set 0 x) ∧
      (BinHeap.el v i < x → 1 ≤ i → w = DAry.dSiftUp d x v i) ∧
      w.length = v.length ∧
      (↑w : Multiset Int) + {BinHeap.el v i} = ↑v + {x} ∧
      DAry.IsDHeap d w := by
  obtain ⟨w, hw, hlen, hcoe, hheap⟩ := DAry.dreplace_spec d hd hv hi x
  refine ⟨w, hw, ?_, ?_, ?_, ?_, hlen, hcoe, hheap⟩
  · intro heq
    unfold DAry.dreplace at hw
    rw [if_neg (by omega), if_pos heq] at hw
    injection hw with hb
    exact hb.symm
  · intro hlt
    unfold DAry.dreplace at hw
    rw [if_neg (by omega), if_neg (by omega), if_pos hlt] at hw
    injection hw with hb
    exact hb.symm
  · intro hgt h0
    subst h0
    unfold DAry.dreplace at hw
    rw [if_neg (by omega), if_neg (by omega), if_neg (by omega),
      if_pos rfl] at hw
    injection hw with hb
    exact hb.symm
  · intro hgt h1
    unfold DAry.dreplace at hw
    rw [if_neg (by omega), if_neg (by omega), if_neg (by omega),
      if_neg (by omega)] at hw
    injection hw with hb
    exact hb.symm

unseal DAry.dheapfyLoop in
theorem C7_dreplace_contract_witness :
    DAry.dbuild_heap 1 [10] = [10] ∧
    DAry.dreplace 1 0 (-5) (DAry.dbuild_heap 1 [10]) = .ok [-5] ∧
    (∃ w, DAry.dreplace 1 0 (-5) (DAry.dbuild_heap 1 [10]) = .ok w ∧
      (-5 = BinHeap.el (DAry.dbuild_heap 1 [10]) 0 →
        w = DAry.dbuild_heap 1 [10]) ∧
      (-5 < BinHeap.el (DAry.dbuild_heap 1 [10]) 0 →
        w = DAry.dheapfy 1 ((DAry.dbuild_heap 1 [10]).set 0 (-5)) 0) ∧
      (BinHeap.el (DAry.dbuild_heap 1 [10]) 0 < -5 → 0 = 0 →
        w = (DAry.dbuild_heap 1 [10]).set 0 (-5)) ∧
      (BinHeap.el (DAry.dbuild_heap 1 [10]) 0 < -5 → 1 ≤ 0 →
        w = DAry.dSiftUp 1 (-5) (DAry.dbuild_heap 1 [10]) 0) ∧
      w.length = (DAry.dbuild_heap 1 [10]).length ∧
      (↑w : Multiset Int) + {BinHeap.el (DAry.dbuild_heap 1 [10]) 0}
        = ↑(DAry.dbuild_heap 1 [10]) + {-5} ∧
      DAry.IsDHeap 1 w) :=
  ⟨by decide, by decide,
    C7_dreplace_contract 1 0 (-5) (DAry.dbuild_heap 1 [10]) (le_refl 1)
      (by decide) (by decide)⟩

unseal BinHeap.heapfy in
/-- C8 counterexample: `toPriorityQueue` does not reverse then rebuild.  On
the sorted array `[0, 1, 2, 3]` (dummy `0`, live `[1, 2, 3]`), the source
swaps the dummy slot with the last element and pops it before rebuilding,
giving `[0, 3, 1, 2]`, while reverse-then-rebuild gives `[0, 3, 2, 1]`. -/
theorem C8_not_reverse_then_build :
    BinHeap.priority_queue (fun x : Int => x) 0 [0, 1, 2, 3]
      ≠ BinHeap.toPriorityQueueSpec (fun x : Int => x) 0 [0, 1, 2, 3] := by
  decide

/-- C8 amended: `priority_queue` swaps the dummy slot with the last element,
drops the popped slot and rebuilds over what remains (not reverse-then-
rebuild); the round trip after `heapsort` still restores a valid heap over
exactly the multiset that was sorted. -/
theorem C8_priority_queue_rebuild {α : Type} [Inhabited α] (f : α → Int)
    (d0 : α) (v : List α) (h1 : 1 ≤ v.length) :
    BinHeap.priority_queue f d0 v
      = BinHeap.build_heap f d0
        ((BinHeap.exchange v 0 (v.length - 1)).dropLast) ∧
    BinHeap.IsHeap f (BinHeap.priority_queue f d0 (BinHeap.heapsort f v)) ∧
    (↑(BinHeap.priority_queue f d0 (BinHeap.heapsort f v)).tail : Multiset α)
      = ↑v.tail := by
  refine ⟨rfl, BinHeap.priority_queue_IsHeap f d0 _, ?_⟩
  have hlen : (BinHeap.heapsort f v).length = v.length :=
    BinHeap.length_heapsort f v
  rw [BinHeap.priority_queue_tail_coe f d0 _ (by omega)]
  exact Multiset.coe_eq_coe.mpr (BinHeap.heapsort_tail_perm f v h1)

theorem C8_priority_queue_rebuild_witness :
    BinHeap.priority_queue (fun x : Int => x) 0 [0, 1, 2]
      = BinHeap.build_heap (fun x : Int => x) 0
        ((BinHeap.exchange [0, 1, 2] 0 (([0, 1, 2] : List Int).length - 1)).dropLast) ∧
    BinHeap.IsHeap (fun x : Int => x)
      (BinHeap.priority_queue (fun x : Int => x) 0
        (BinHeap.heapsort (fun x : Int => x) [0, 1, 2])) ∧
    (↑(BinHeap.priority_queue (fun x : Int => x) 0
        (BinHeap.heapsort (fun x : Int => x) [0, 1, 2])).tail : Multiset Int)
      = ↑([0, 1, 2] : List Int).tail :=
  C8_priority_queue_rebuild (fun x : Int => x) 0 [0, 1, 2] (by decide)

/-- C9: degree 1 is a valid degenerate case — the checked embeddings of
`new`, `build_heap`, `insert`, `extract_max` and `replace` (in which every
array access, assertion and division of the source is guarded, `none`
standing for a panic) return `some` of the total result at `d = 1`, and the
d ≥ 2 contracts (heap invariant, max extraction, multiset bookkeeping)
hold unchanged. -/
theorem C9_degree_one_safe (xs v : List Int) (i : Nat) (x : Int) :
    DAry.dnewCk 1 xs = some (DAry.dbuild_heap 1 xs) ∧
    DAry.dbuild_heapCk 1 v = some (DAry.dbuild_heap 1 v) ∧
    DAry.dinsertCk 1 x v = some (DAry.dinsert 1 x v) ∧
    DAry.dextract_maxCk 1 v = some (DAry.dextract_max 1 v) ∧
    DAry.dreplaceCk 1 i x v = some (DAry.dreplace 1 i x v) ∧
    DAry.IsDHeap 1 (DAry.dbuild_heap 1 v) ∧
    (DAry.IsDHeap 1 v → DAry.IsDHeap 1 (DAry.dinsert 1 x v)) ∧
    (DAry.IsDHeap 1 v → v.length ≠ 0 →
      ∃ w, DAry.dextract_max 1 v = (some (BinHeap.el v 0), w) ∧
        w.length = v.length - 1 ∧
        (↑w : Multiset Int) + {BinHeap.el v 0} = ↑v ∧ DAry.IsDHeap 1 w) ∧
    (DAry.IsDHeap 1 v → i < v.length →
      ∃ w, DAry.dreplace 1 i x v = .ok w ∧ w.length = v.length ∧
        (↑w : Multiset Int) + {BinHeap.el v i} = ↑v + {x} ∧
        DAry.IsDHeap 1 w) := by
  refine ⟨(DAry.dnewCk_eq 1 xs).trans ?_, DAry.dbuild_heapCk_eq 1 (le_refl 1) v,
    DAry.dinsertCk_eq 1 (le_refl 1) x v, DAry.dextract_maxCk_eq 1 v,
    DAry.dreplaceCk_eq 1 (le_refl 1) i x v,
    DAry.dbuild_heap_IsDHeap 1 (le_refl 1) v,
    fun hv => DAry.dinsert_IsDHeap 1 (le_refl 1) hv x, ?_, ?_⟩
  · unfold DAry.dnew
    rw [if_pos Nat.one_pos]
  · intro hv hne
    obtain ⟨w, h1, h2, h3, h4, -⟩ := DAry.dextract_max_spec 1 (le_refl 1) hv hne
    exact ⟨w, h1, h2, h3, h4⟩
  · intro hv hi
    exact DAry.dreplace_spec 1 (le_refl 1) hv hi x

/-- C10: every observable of the binary heap — the results collected over an
arbitrary sequence of `insert`/`extractMax`/`delete`/`replace`/`max`
operations, the stored live multiset, and the sorted output of `heapsort` —
is independent of the value stored in the internal dummy slot 0: two runs
whose initial arrays differ only in that slot agree on all of them. -/
theorem C10_sentinel_independence {α : Type} [Inhabited α] [DecidableEq α]
    (f : α → Int) (a b : α) (t : List α) (ops : List (BinHeap.HOp α)) :
    (BinHeap.runOps f (a :: t) ops).2 = (BinHeap.runOps f (b :: t) ops).2 ∧
    ((BinHeap.runOps f (a :: t) ops).1).tail
      = ((BinHeap.runOps f (b :: t) ops).1).tail ∧
    (↑((BinHeap.runOps f (a :: t) ops).1).tail : Multiset α)
      = ↑((BinHeap.runOps f (b :: t) ops).1).tail ∧
    (BinHeap.heapsort f (a :: t)).tail = (BinHeap.heapsort f (b :: t)).tail ∧
    BinHeap.heapMax (a :: t) = BinHeap.heapMax (b :: t) := by
  obtain ⟨h1, h2, -⟩ := BinHeap.runOps_cons f ops a b t
  exact ⟨h1, h2, by rw [h2], BinHeap.heapsort_cons_tail f a b t,
    BinHeap.heapMax_cons a b t⟩
